import Mathlib

/-!
Shallow embedding of `src/coins/monero/src/wallet/decoys.rs` (decoy selection
for Monero-style ring signatures), together with proofs of the specified
properties.

Modelling conventions:
* `u64`/`usize` values are modelled as `Nat`.  The one subtraction that can
  underflow at a claim-relevant input (`high - MATURITY`) is modelled by an
  explicit underflow branch (Rust debug builds panic on it); all other
  subtractions in the source are guarded by comparisons or by sortedness and
  cannot underflow on the inputs the code reaches.
* The `f64` gamma-age pipeline (gamma draw, `exp`, recent-window fallback,
  `age * per_second` cast) is abstracted: the resulting candidate offset `o`
  is one draw from the RNG stream.  Everything downstream of that cast
  (`if o < high { ... }`) is modelled exactly.
* The RNG is a stream of naturals with a position; `HashSet<u64>` is a
  `List Nat` used with membership-checked insertion (so it stays duplicate
  free) and `List.erase`.
* The async RPC is an oracle record whose methods return `Except RpcError`.
* Both unbounded `while` loops (candidate resolution and freshness repair)
  take explicit fuel; running out of fuel is a distinguished outcome
  (`SelErr.fuel`), separate from RPC errors, so "the loop returned
  successfully" is faithfully `Except.ok`.
-/

namespace SeraiDecoys

/-- Opaque output data: the `[EdwardsPoint; 2]` pair (one-time key, amount
commitment), treated as uninterpreted values. -/
structure OutputData where
  key : Nat
  commitment : Nat
deriving DecidableEq, Repr, Inhabited

/-- Wallet-side spendable input: transaction id, local output position, and
the data used to rebuild the output (`input.key`,
`input.commitment.calculate()`). -/
structure SpendableOutput where
  tx : Nat
  o : Nat
  key : Nat
  commitmentValue : Nat
deriving DecidableEq, Repr

/-- Opaque output data the wallet reconstructs for a real input
(`[input.key, input.commitment.calculate()]`). -/
def SpendableOutput.data (s : SpendableOutput) : OutputData :=
  { key := s.key, commitment := s.commitmentValue }

/-- Chain-communication error (`RpcError`), uninterpreted. -/
structure RpcError where
  code : Nat
deriving DecidableEq, Repr

/-- Oracle for the chain/network layer (`Rpc`). -/
structure Rpc where
  get_o_indexes : Nat → Except RpcError (List Nat)
  get_outputs : List Nat → Nat → Except RpcError (List (Option OutputData))
  get_output_distribution : Nat → Except RpcError (List Nat)

/-- RNG: a fixed stream of `u64` draws and a position. -/
structure Rng where
  stream : Nat → Nat
  pos : Nat

/-- Draw the next value (`rng.next_u64()` or the abstracted gamma-age draw). -/
def Rng.next (r : Rng) : Nat × Rng :=
  (r.stream r.pos, { stream := r.stream, pos := r.pos + 1 })

/-- Maturity offset in blocks (`MATURITY`). -/
def MATURITY : Nat := 60

/-- Ring size (`RING_LEN`). -/
def RING_LEN : Nat := 11

/-- Decoys per ring (`DECOYS = RING_LEN - 1`). -/
def DECOYS : Nat := RING_LEN - 1

/-- HashSet-style insertion: the used set never holds duplicates. -/
def insertUsed (used : List Nat) (x : Nat) : List Nat :=
  if x ∈ used then used else x :: used

/-- Model of `slice::partition_point`: on a slice partitioned with respect to
`p` (all `true` before all `false`, which holds at every call site because the
slices are sorted) the partition point is the length of the `true` prefix. -/
def partitionPoint {α : Type} (l : List α) (p : α → Bool) : Nat :=
  (l.takeWhile p).length

/-- Outcomes of the fallible parts of selection.  `rpc` is a propagated
chain-communication error; `fuel` is loop-fuel exhaustion (the source loops
are unbounded); `subOverflow` is the u64 underflow panic of
`high - MATURITY` when `high < MATURITY` (debug build); `notEnoughDecoys` is
the explicit `panic!("Not enough decoys available")`. -/
inductive SelErr where
  | rpc (e : RpcError)
  | fuel
  | subOverflow
  | notEnoughDecoys
deriving DecidableEq, Repr

/-- One iteration of the candidate-sampling loop body in `select_n`
(lines 41-63).  The f64 gamma pipeline producing the offset-from-tip `o` is
abstracted as one RNG draw; from `if o < high` on, the code is modelled
exactly: locate the block bracket via `partition_point`, reject empty
brackets, draw a uniform index in the bracket, reject indices already in
`used`, otherwise insert and return the candidate.  The source's panicking
slice indexing `distribution[i]` is modelled total with default 0; on the
sorted distributions the code runs against, the accesses are in bounds
(proved below). -/
def sampleOne (distribution : List Nat) (high : Nat) (rng : Rng)
    (used : List Nat) : Option Nat × Rng × List Nat :=
  let (o, rng₁) := rng.next
  if o < high then
    let i := partitionPoint distribution (fun s => decide (s < high - 1 - o))
    let prev := i - 1
    let n := distribution.getD i 0 - distribution.getD prev 0
    if n ≠ 0 then
      let (r, rng₂) := rng₁.next
      let cand := distribution.getD prev 0 + r % n
      if cand ∈ used then (none, rng₂, used)
      else (some cand, rng₂, insertUsed used cand)
    else (none, rng₁, used)
  else (none, rng₁, used)

/-- Inner `while candidates.len() != remaining` loop of `select_n`
(lines 40-64), with fuel. -/
def sampleCandidates (distribution : List Nat) (high : Nat) :
    Nat → Rng → List Nat → Nat → List Nat →
    Except SelErr (List Nat × Rng × List Nat)
  | 0, _, _, _, _ => .error .fuel
  | fuel + 1, rng, used, remaining, acc =>
    if acc.length = remaining then .ok (acc, rng, used)
    else
      match sampleOne distribution high rng used with
      | (none, rng', used') =>
        sampleCandidates distribution high fuel rng' used' remaining acc
      | (some cand, rng', used') =>
        sampleCandidates distribution high fuel rng' used' remaining
          (acc ++ [cand])

/-- Outer `while confirmed.len() != count` loop of `select_n` (lines 37-72),
with fuel.  A sampled batch is resolved through `rpc.get_outputs`; candidates
whose lookup returns `Some` are appended to `confirmed` paired with their
data (the source's index loop over `outputs`, with the §6 same-length
interface contract, is the zip). -/
def selectNAux (rpc : Rpc) (height : Nat) (distribution : List Nat)
    (high : Nat) :
    Nat → Rng → List Nat → Nat → List (Nat × OutputData) →
    Except SelErr (List (Nat × OutputData) × Rng × List Nat)
  | 0, _, _, _, _ => .error .fuel
  | fuel + 1, rng, used, count, confirmed =>
    if confirmed.length = count then .ok (confirmed, rng, used)
    else
      let remaining := count - confirmed.length
      match sampleCandidates distribution high fuel rng used remaining [] with
      | .error e => .error e
      | .ok (candidates, rng', used') =>
        match rpc.get_outputs candidates height with
        | .error e => .error (.rpc e)
        | .ok outputs =>
          selectNAux rpc height distribution high fuel rng' used' count
            (confirmed ++
              (candidates.zip outputs).filterMap
                (fun p => p.2.map (fun d => (p.1, d))))

/-- Ghost-instrumented copy of `selectNAux` (lines 37-72): identical control
flow and results, but it additionally returns, as a fourth component, the
list of every candidate index the sampler accepted during the call (in batch
order) — whether or not the candidate later resolved through
`rpc.get_outputs`.  `selectNAuxG_proj` proves it projects onto `selectNAux`;
it exists so theorems can speak about candidates that failed to resolve. -/
def selectNAuxG (rpc : Rpc) (height : Nat) (distribution : List Nat)
    (high : Nat) :
    Nat → Rng → List Nat → Nat → List (Nat × OutputData) →
    Except SelErr (List (Nat × OutputData) × Rng × List Nat × List Nat)
  | 0, _, _, _, _ => .error .fuel
  | fuel + 1, rng, used, count, confirmed =>
    if confirmed.length = count then .ok (confirmed, rng, used, [])
    else
      match sampleCandidates distribution high fuel rng used
          (count - confirmed.length) [] with
      | .error e => .error e
      | .ok (candidates, rng', used') =>
        match rpc.get_outputs candidates height with
        | .error e => .error (.rpc e)
        | .ok outputs =>
          match selectNAuxG rpc height distribution high fuel rng' used'
              count
              (confirmed ++
                (candidates.zip outputs).filterMap
                  (fun p => p.2.map (fun d => (p.1, d)))) with
          | .error e => .error e
          | .ok (cs, rng'', used'', sampled) =>
            .ok (cs, rng'', used'', candidates ++ sampled)

/-- Entry point of `select_n` (lines 26-75): run the resolution loop with an
empty `confirmed` accumulator. -/
def select_n (rpc : Rpc) (height : Nat) (distribution : List Nat)
    (high : Nat) (fuel : Nat) (rng : Rng) (used : List Nat) (count : Nat) :
    Except SelErr (List (Nat × OutputData) × Rng × List Nat) :=
  selectNAux rpc height distribution high fuel rng used count []

/-- Delta encoder `offset` (lines 77-84): element 0 is `ring[0]`, element `m`
(`m ≥ 1`) is `ring[m] - ring[m-1]`.  The imperative loop fills the output in
descending index order, but no cell is read after being written, so it equals
this zip of adjacent differences.  The source indexes `ring[0]` and so panics
on an empty slice; every call site passes a `RING_LEN`-sized ring. -/
def offset (ring : List Nat) : List Nat :=
  match ring with
  | [] => []
  | r :: rest => r :: List.zipWith (fun a b => a - b) rest (r :: rest)

/-- Modelled from the spec (§4.4, §8): the decoder is not in the source; the
spec defines it as prefix-summing the offsets ("the original absolute indices
are recovered by prefix-summing"). -/
def decode (offsets : List Nat) : List Nat :=
  (offsets.scanl (· + ·) 0).tail

/-- The produced artifact (`struct Decoys`).  `i` is `u8` in the source; the
`u8::try_from(..).unwrap()` cannot fail because a ring has 11 < 256 members,
so it is modelled as `Nat`. -/
structure Decoys where
  i : Nat
  offsets : List Nat
  ring : List OutputData
deriving DecidableEq, Repr, Inhabited

/-- Per-member sort of a candidate ring:
`ring.sort_by(|a, b| a.0.cmp(&b.0))` (sort ascending by absolute index).
Modelled with insertion sort (which reduces definitionally); every call site
sorts a list whose keys are pairwise distinct, so the sorted result does not
depend on the algorithm (and insertion sort is stable like `sort_by`
anyway). -/
def sortRing (ring : List (Nat × OutputData)) : List (Nat × OutputData) :=
  ring.insertionSort (fun a b => a.1 ≤ b.1)

instance ringKeyTotal : IsTotal (Nat × OutputData) (fun a b => a.1 ≤ b.1) :=
  ⟨fun a b => Nat.le_total a.1 b.1⟩

instance ringKeyTrans : IsTrans (Nat × OutputData) (fun a b => a.1 ≤ b.1) :=
  ⟨fun _ _ _ hab hbc => Nat.le_trans hab hbc⟩

/-- Building the published `Decoys` value from the final sorted ring and the
real output `o` (lines 191-196): binary-search the real spend's position,
delta-encode the indices, extract the opaque data in sorted order. -/
def mkDecoys (o : Nat × OutputData) (ring : List (Nat × OutputData)) :
    Decoys :=
  { i := partitionPoint ring (fun x => decide (x.1 < o.1)),
    offsets := offset (ring.map Prod.fst),
    ring := ring.map Prod.snd }

/-- Freshness-repair loop (lines 167-186), with fuel.  While the median
member's index is below `high * 2 / 3`: drain the bottom half, re-adding the
real spend `o` whenever it was drained and releasing every other drained
index from `used`; then top the ring back up via `select_n` and re-sort. -/
def repairRing (rpc : Rpc) (height : Nat) (distribution : List Nat)
    (high : Nat) (o : Nat × OutputData) :
    Nat → Rng → List Nat → List (Nat × OutputData) →
    Except SelErr (List (Nat × OutputData) × Rng × List Nat)
  | 0, _, _, _ => .error .fuel
  | fuel + 1, rng, used, ring =>
    if (ring.getD (RING_LEN / 2) (0, default)).1 < high * 2 / 3 then
      let removed := ring.take (RING_LEN / 2)
      let drained :=
        (ring.drop (RING_LEN / 2), used)
      let drained :=
        removed.foldl
          (fun s rem =>
            if rem.1 = o.1 then (s.1 ++ [o], s.2)
            else (s.1, s.2.erase rem.1))
          drained
      match
        select_n rpc height distribution high fuel rng drained.2
          (RING_LEN - drained.1.length)
      with
      | .error e => .error e
      | .ok (extra, rng', used') =>
        repairRing rpc height distribution high o fuel rng' used'
          (sortRing (drained.1 ++ extra))
    else .ok (ring, rng, used)

/-- Result of the per-input assembly loop.  `inits` is a ghost output — the
pre-repair candidate ring of each input, recorded so theorems can speak about
which pool positions each input consumed; `select` discards it.  `pool` is
the leftover decoy pool (always empty on the source's call pattern). -/
structure AssembleOut where
  res : List Decoys
  inits : List (List (Nat × OutputData))
  rng : Rng
  used : List Nat
  pool : List (Nat × OutputData)

/-- Per-input ring assembly loop of `select` (lines 146-197): for each real
output `o`, drain the LAST `DECOYS` entries of the pool
(`decoys.drain((decoys.len() - DECOYS)..)`), add `o`, sort, run the
freshness repair when `high > 500`, and emit a `Decoys`. -/
def assembleRings (rpc : Rpc) (height : Nat) (distribution : List Nat)
    (high : Nat) (fuel : Nat) :
    Rng → List Nat → List (Nat × OutputData) → List (Nat × OutputData) →
    Except SelErr AssembleOut
  | rng, used, pool, [] =>
    .ok { res := [], inits := [], rng := rng, used := used, pool := pool }
  | rng, used, pool, o :: rest =>
    let ring₀ := sortRing (pool.drop (pool.length - DECOYS) ++ [o])
    let pool' := pool.take (pool.length - DECOYS)
    match
      (if 500 < high then
        repairRing rpc height distribution high o fuel rng used ring₀
      else .ok (ring₀, rng, used))
    with
    | .error e => .error e
    | .ok (ring, rng', used') =>
      match assembleRings rpc height distribution high fuel rng' used' pool'
          rest with
      | .error e => .error e
      | .ok out =>
        .ok { out with
              res := mkDecoys o ring :: out.res,
              inits := ring₀ :: out.inits }

/-- Resolution of the real inputs (lines 105-111): for each input, look up
its transaction's global output indices and keep the one at the input's local
position, paired with the wallet-reconstructed opaque data.  The source
indexes the returned list and would panic out of bounds; modelled with a
default of 0 (no claim exercises a malformed `get_o_indexes` reply). -/
def resolveInputs (rpc : Rpc) :
    List SpendableOutput → Except RpcError (List (Nat × OutputData))
  | [] => .ok []
  | input :: rest =>
    match rpc.get_o_indexes input.tx with
    | .error e => .error e
    | .ok idxs =>
      match resolveInputs rpc rest with
      | .error e => .error e
      | .ok tail => .ok ((idxs.getD input.o 0, input.data) :: tail)

/-- Entry point `Decoys::select` (lines 98-200): resolve the real inputs,
fetch the distribution, seed `used` with the real indices, check the
maturity guard (whose u64 subtraction underflows — a debug-build panic —
when `high < MATURITY`), pool `inputs.len() * DECOYS` confirmed decoys in one
`select_n` call, then assemble one ring per input.  The f64 `per_second`
issuance rate feeds only the abstracted age pipeline and is not modelled.
Reading `high` from `distribution[distribution.len() - 1]` panics on an
empty distribution in the source; here `getD` yields 0, which trips the
(equally fatal) maturity guard. -/
def select (rpc : Rpc) (height : Nat) (fuel : Nat) (rng : Rng)
    (inputs : List SpendableOutput) : Except SelErr (List Decoys) :=
  match resolveInputs rpc inputs with
  | .error e => .error (.rpc e)
  | .ok outputs =>
    match rpc.get_output_distribution height with
    | .error e => .error (.rpc e)
    | .ok distribution =>
      let high := distribution.getD (distribution.length - 1) 0
      let used := outputs.foldl (fun u o => insertUsed u o.1) []
      if high < MATURITY then .error .subOverflow
      else if high - MATURITY < inputs.length * RING_LEN then
        .error .notEnoughDecoys
      else
        match select_n rpc height distribution high fuel rng used
            (inputs.length * DECOYS) with
        | .error e => .error e
        | .ok (decoys, rng', used') =>
          match assembleRings rpc height distribution high fuel rng' used'
              decoys outputs with
          | .error e => .error e
          | .ok out => .ok out.res

/-- Honest chain model: the three RPC methods answer from a fixed
distribution, a fixed output table `chain`, and a fixed index table, never
failing.  This realises the §6 interface contract (`get_outputs` returns one
`Option` per queried index, in order). -/
def Rpc.ofChain (dist : List Nat) (chain : Nat → Option OutputData)
    (oidx : Nat → List Nat) : Rpc :=
  { get_o_indexes := fun tx => .ok (oidx tx),
    get_outputs := fun cs _ => .ok (cs.map chain),
    get_output_distribution := fun _ => .ok dist }

/-- A general RPC oracle is faithful to the chain table `chain` when every
successful `get_outputs` reply is the pointwise lookup of the queried
indices (the §6 same-length/order contract). -/
def OutputsWF (rpc : Rpc) (chain : Nat → Option OutputData) : Prop :=
  ∀ cs h outs, rpc.get_outputs cs h = .ok outs → outs = cs.map chain

/-- Sequential `HashSet::remove` of a list of indices (the effect of the
repair loop's drain on the used set). -/
def eraseAll (u : List Nat) (xs : List Nat) : List Nat :=
  xs.foldl (fun uu x => uu.erase x) u

/-- Invariant carried by a candidate ring through the freshness-repair loop,
relative to the real spend `o`, a protected set of indices `P` (real-spend
indices of all inputs, unconsumed pool decoys, and members of already
finalized rings) and the current used set. -/
structure RingInv (chain : Nat → Option OutputData) (rpc : Rpc)
    (o : Nat × OutputData) (P : List Nat) (used : List Nat)
    (ring : List (Nat × OutputData)) : Prop where
  len : ring.length = RING_LEN
  nodup : (ring.map Prod.fst).Nodup
  sorted : ring.Pairwise (fun a b => a.1 ≤ b.1)
  real_mem : o ∈ ring
  real_uniq : ∀ m ∈ ring, m.1 = o.1 → m = o
  mem_used : ∀ m ∈ ring, m.1 ∈ used
  prot_sub : ∀ x ∈ P, x ∈ used
  decoy_not_prot : ∀ m ∈ ring, m.1 ∈ P → m = o
  decoy_chain : OutputsWF rpc chain → ∀ m ∈ ring, m ≠ o → chain m.1 = some m.2

/-- Facts established for each finalized ring, relative to the real spend
`o`, the freshness bound driven by `high`, and a protected index set `P`
(which, at the top level, contains every real input's index). -/
structure RingFacts (chain : Nat → Option OutputData) (rpc : Rpc)
    (high : Nat) (o : Nat × OutputData) (P : List Nat)
    (ring : List (Nat × OutputData)) : Prop where
  len : ring.length = RING_LEN
  nodup : (ring.map Prod.fst).Nodup
  sorted : ring.Pairwise (fun a b => a.1 ≤ b.1)
  real_mem : o ∈ ring
  real_uniq : ∀ m ∈ ring, m.1 = o.1 → m = o
  decoy_not_prot : ∀ m ∈ ring, m.1 ∈ P → m = o
  decoy_chain : OutputsWF rpc chain → ∀ m ∈ ring, m ≠ o → chain m.1 = some m.2
  median : 500 < high → high * 2 / 3 ≤ (ring.getD (RING_LEN / 2) (0, default)).1

/-! ### Concrete scenarios (used to witness the theorems on closed inputs) -/

/-- Chain table used by the concrete scenarios: output `i` resolves to the
opaque data `(i, i)`. -/
def chainW : Nat → Option OutputData :=
  fun i => some { key := i, commitment := i }

/-- Scenario A distribution: one block bracket holding outputs `0..99`,
`high = 100`. -/
def distW : List Nat := [0, 100]

def oidxW : Nat → List Nat := fun tx => if tx = 0 then [98] else [99]

def rpcW : Rpc := Rpc.ofChain distW chainW oidxW

/-- Scenario A inputs: two spends whose absolute indices resolve to 98 and
99, with wallet data matching the chain table. -/
def inputsW : List SpendableOutput :=
  [{ tx := 0, o := 0, key := 98, commitmentValue := 98 },
   { tx := 1, o := 0, key := 99, commitmentValue := 99 }]

/-- Scenario A RNG: age draws (even positions) are 0, bracket draws (odd
positions) are 0, 1, 2, ..., so the accepted candidates are 0, 1, 2, .... -/
def rngW : Rng := { stream := fun n => if n % 2 = 0 then 0 else n / 2, pos := 0 }

/-- Scenario B distribution: `high = 1000 > 500`, so the freshness check
runs. -/
def distV : List Nat := [0, 1000]

def oidxV : Nat → List Nat := fun _ => [998]

def rpcV : Rpc := Rpc.ofChain distV chainW oidxV

def inputsV : List SpendableOutput :=
  [{ tx := 0, o := 0, key := 998, commitmentValue := 998 }]

/-- Scenario B RNG: candidates come out as 700, 701, ..., all above the
freshness threshold `666`. -/
def rngV : Rng :=
  { stream := fun n => if n % 2 = 0 then 0 else 700 + n / 2, pos := 0 }

/-- Scenario C distribution: `high = 10 < MATURITY`, triggering the guard. -/
def distG : List Nat := [10]

def rpcG : Rpc := Rpc.ofChain distG chainW (fun _ => [5])

def inputsG : List SpendableOutput :=
  [{ tx := 0, o := 0, key := 5, commitmentValue := 5 }]

/-- RPC whose `get_o_indexes` fails (for the error-propagation witness). -/
def rpcFailIdx : Rpc :=
  { get_o_indexes := fun _ => .error { code := 7 },
    get_outputs := fun cs _ => .ok (cs.map chainW),
    get_output_distribution := fun _ => .ok distW }

/-- RPC whose `get_output_distribution` fails. -/
def rpcFailDist : Rpc :=
  { get_o_indexes := fun tx => .ok (oidxW tx),
    get_outputs := fun cs _ => .ok (cs.map chainW),
    get_output_distribution := fun _ => .error { code := 8 } }

/-- RPC whose `get_outputs` fails. -/
def rpcFailOuts : Rpc :=
  { get_o_indexes := fun tx => .ok (oidxW tx),
    get_outputs := fun _ _ => .error { code := 9 },
    get_output_distribution := fun _ => .ok distW }

/-- Shorthand for the chain table's opaque data. -/
def outW (i : Nat) : OutputData := { key := i, commitment := i }

/-- Chain table on which output indices below 5 do not resolve (spent or
nonexistent): used to exercise candidates that fail `get_outputs`. -/
def chainX : Nat → Option OutputData :=
  fun i => if i < 5 then none else some (outW i)

def rpcX : Rpc := Rpc.ofChain distW chainX oidxW

/-- The confirmed records of the failing-candidates run: candidates
0, 1, 2, 3, 4 fail to resolve, 5 and 6 confirm. -/
def csX : List (Nat × OutputData) := [(5, outW 5), (6, outW 6)]

/-- The exit used set of that run: every sampled candidate, resolved or
not, is still present. -/
def usedX : List Nat := [6, 5, 4, 3, 2, 1, 0]

/-- The value `select rpcW 0 64 rngW inputsW` computes: ring 0 holds decoys
10..19 (the BACK of the pool) plus real spend 98; ring 1 holds decoys 0..9
plus real spend 99. -/
def resW : List Decoys :=
  [{ i := 10, offsets := [10, 1, 1, 1, 1, 1, 1, 1, 1, 1, 79],
     ring := (List.range 10).map (fun j => outW (10 + j)) ++ [outW 98] },
   { i := 10, offsets := [0, 1, 1, 1, 1, 1, 1, 1, 1, 1, 90],
     ring := (List.range 10).map (fun j => outW j) ++ [outW 99] }]

/-- The value `select rpcV 0 64 rngV inputsV` computes. -/
def resV : List Decoys :=
  [{ i := 10, offsets := [700, 1, 1, 1, 1, 1, 1, 1, 1, 1, 289],
     ring := (List.range 10).map (fun j => outW (700 + j)) ++ [outW 998] }]

/-- The 20-decoy pool `select rpcW ...` requests from `select_n`. -/
def poolW : List (Nat × OutputData) :=
  (List.range 20).map (fun i => (i, outW i))

/-- The used set after the pool request of scenario A. -/
def usedW : List Nat := (List.range 20).reverse ++ [99, 98]

/-- The assembly result of scenario A, starting from the sampled pool:
ring 0 drains pool positions 10..19, ring 1 drains positions 0..9. -/
def asmOutW : AssembleOut :=
  { res := resW,
    inits :=
      [(List.range 10).map (fun j => (10 + j, outW (10 + j)))
        ++ [(98, outW 98)],
       (List.range 10).map (fun j => (j, outW j)) ++ [(99, outW 99)]],
    rng := { stream := rngW.stream, pos := 40 },
    used := usedW,
    pool := [] }

/-! ### Basic lemmas about the used set, the encoder and `partition_point` -/

theorem mem_insertUsed_iff {u : List Nat} {x y : Nat} :
    y ∈ insertUsed u x ↔ y = x ∨ y ∈ u := by
  unfold insertUsed
  split
  · next hx =>
    constructor
    · exact Or.inr
    · rintro (rfl | hy) <;> assumption
  · exact List.mem_cons

theorem decode_scanl (rest : List Nat) :
    ∀ r : Nat, (r :: rest).Chain' (· ≤ ·) →
      List.scanl (· + ·) r (List.zipWith (fun a b => a - b) rest (r :: rest))
        = r :: rest := by
  induction rest with
  | nil => intro r _; simp [List.scanl]
  | cons b rest ih =>
    intro r hch
    have hrb : r ≤ b := (List.chain'_cons.mp hch).1
    have htail : (b :: rest).Chain' (· ≤ ·) := (List.chain'_cons.mp hch).2
    simp only [List.zipWith, List.scanl]
    rw [Nat.add_sub_cancel' hrb]
    rw [ih b htail]

/-- Prefix-summing the delta encoding of a non-decreasing sequence recovers
the sequence. -/
theorem decode_offset (l : List Nat) (h : l.Chain' (· ≤ ·)) :
    decode (offset l) = l := by
  cases l with
  | nil => rfl
  | cons r rest =>
    simp only [offset, decode, List.scanl, Nat.zero_add, List.tail_cons]
    exact decode_scanl rest r h

theorem offset_length (l : List Nat) : (offset l).length = l.length := by
  cases l with
  | nil => rfl
  | cons r rest => simp [offset]

theorem takeWhile_length_lt {α : Type} (l : List α) (p : α → Bool)
    (hne : l ≠ []) (hlast : p (l.getLast hne) = false) :
    (l.takeWhile p).length < l.length := by
  have hsub : (l.takeWhile p).Sublist l := List.takeWhile_sublist p
  rcases Nat.lt_or_ge (l.takeWhile p).length l.length with hlt | hge
  · exact hlt
  · exfalso
    have heq : l.takeWhile p = l :=
      hsub.eq_of_length (Nat.le_antisymm hsub.length_le hge)
    have := (List.takeWhile_eq_self_iff.mp heq) (l.getLast hne)
      (List.getLast_mem hne)
    rw [hlast] at this
    exact Bool.false_ne_true this

theorem sorted_getD_le {l : List Nat} (hs : l.Pairwise (· ≤ ·)) {i j : Nat}
    (hij : i ≤ j) (hj : j < l.length) : l.getD i 0 ≤ l.getD j 0 := by
  rcases Nat.eq_or_lt_of_le hij with rfl | hlt
  · exact Nat.le_refl _
  · have hi : i < l.length := Nat.lt_trans hlt hj
    rw [List.getD_eq_getElem l 0 hi, List.getD_eq_getElem l 0 hj]
    exact List.pairwise_iff_getElem.mp hs i j hi hj hlt

/-- On a slice sorted by `f`, the partition point of the predicate
`f · < v` counts exactly the members with `f`-value below `v`. -/
theorem partitionPoint_eq_countP {α : Type} (f : α → Nat) (v : Nat) :
    ∀ l : List α, l.Pairwise (fun a b => f a ≤ f b) →
      partitionPoint l (fun x => decide (f x < v)) =
        l.countP (fun x => decide (f x < v)) := by
  intro l hl
  induction l with
  | nil => rfl
  | cons a l ih =>
    rcases List.pairwise_cons.mp hl with ⟨ha, hl'⟩
    by_cases hav : f a < v
    · rw [partitionPoint] at ih ⊢
      rw [List.takeWhile_cons_of_pos (by simpa using hav),
        List.countP_cons_of_pos _ _ (by simpa using hav), List.length_cons,
        ih hl']
    · rw [partitionPoint, List.takeWhile_cons_of_neg (by simpa using hav),
        List.countP_cons_of_neg _ _ (by simpa using hav)]
      have : ∀ x ∈ l, ¬ f x < v := fun x hx hxv =>
        hav (Nat.lt_of_le_of_lt (ha x hx) hxv)
      simp only [List.length_nil]
      symm
      rw [List.countP_eq_zero]
      intro x hx
      simpa using this x hx

/-- On a sorted ring containing the real spend as its unique member with the
real index, the element at the real spend's partition point is the real
spend itself. -/
theorem getD_append_head {α : Type} (tw dw : List α) (hne : dw ≠ []) (d : α) :
    (tw ++ dw).getD tw.length d = dw.head hne := by
  rw [List.getD_append_right _ _ _ _ (Nat.le_refl _), Nat.sub_self]
  cases dw with
  | nil => exact absurd rfl hne
  | cons a t => rfl

theorem getD_partitionPoint_eq {l : List (Nat × OutputData)}
    {o : Nat × OutputData} (hs : l.Pairwise (fun a b => a.1 ≤ b.1))
    (ho : o ∈ l) (huniq : ∀ m ∈ l, m.1 = o.1 → m = o) (d : Nat × OutputData) :
    partitionPoint l (fun x => decide (x.1 < o.1)) < l.length ∧
      l.getD (partitionPoint l (fun x => decide (x.1 < o.1))) d = o := by
  set p : Nat × OutputData → Bool := fun x => decide (x.1 < o.1) with hp
  have hsplit : l.takeWhile p ++ l.dropWhile p = l :=
    List.takeWhile_append_dropWhile p l
  have honot : o ∉ l.takeWhile p := by
    intro hmem
    have := List.mem_takeWhile_imp hmem
    simp [hp] at this
  have hodw : o ∈ l.dropWhile p := by
    rcases List.mem_append.mp (by rw [hsplit]; exact ho) with h | h
    · exact absurd h honot
    · exact h
  have hne : l.dropWhile p ≠ [] := List.ne_nil_of_mem hodw
  have hheadp : p ((l.dropWhile p).head hne) = false :=
    List.head_dropWhile_not p l hne
  have hhead_ge : o.1 ≤ ((l.dropWhile p).head hne).1 := by
    simp [hp] at hheadp
    exact hheadp
  have hdw_pw : (l.dropWhile p).Pairwise (fun a b => a.1 ≤ b.1) :=
    hs.sublist (List.dropWhile_sublist p)
  have hhead_le : ((l.dropWhile p).head hne).1 ≤ o.1 := by
    have hsplit_dw := List.head_cons_tail _ hne
    rcases List.mem_cons.mp (by rw [hsplit_dw]; exact hodw) with h | h
    · rw [← h]
    · have hpw2 := hdw_pw
      rw [← hsplit_dw] at hpw2
      exact (List.pairwise_cons.mp hpw2).1 o h
  have hhead_eq : (l.dropWhile p).head hne = o := by
    apply huniq
    · exact (List.dropWhile_sublist p).mem (List.head_mem hne)
    · exact Nat.le_antisymm hhead_le hhead_ge
  have hlen : (l.takeWhile p).length + (l.dropWhile p).length = l.length := by
    rw [← List.length_append, hsplit]
  have hpos : 0 < (l.dropWhile p).length := List.length_pos.mpr hne
  constructor
  · rw [partitionPoint]
    omega
  · have hkey := getD_append_head (l.takeWhile p) (l.dropWhile p) hne d
    rw [hsplit] at hkey
    rw [partitionPoint, hkey, hhead_eq]

/-! ### Sampling-loop lemmas -/

theorem sampleOne_spec (d : List Nat) (h : Nat) (rng : Rng) (u : List Nat)
    {oc : Option Nat} {rng' : Rng} {u' : List Nat}
    (he : sampleOne d h rng u = (oc, rng', u')) :
    (∀ x ∈ u, x ∈ u') ∧
    (∀ c, oc = some c → c ∉ u ∧ u' = insertUsed u c) ∧
    (oc = none → u' = u) := by
  unfold sampleOne Rng.next at he
  simp only [] at he
  split at he
  · split at he
    · split at he
      · simp only [Prod.mk.injEq] at he
        obtain ⟨h1, _h2, h3⟩ := he
        subst h1; subst h3
        refine ⟨fun x hx => hx, ?_, fun _ => rfl⟩
        intro c hc
        exact Option.noConfusion hc
      · rename_i hmem
        simp only [Prod.mk.injEq] at he
        obtain ⟨h1, _h2, h3⟩ := he
        subst h1; subst h3
        refine ⟨fun x hx => ?_, ?_, fun hn => Option.noConfusion hn⟩
        · unfold insertUsed
          split
          · exact hx
          · exact List.mem_cons_of_mem _ hx
        · intro c hc
          injection hc with h4
          subst h4
          exact ⟨hmem, rfl⟩
    · simp only [Prod.mk.injEq] at he
      obtain ⟨h1, _h2, h3⟩ := he
      subst h1; subst h3
      refine ⟨fun x hx => hx, ?_, fun _ => rfl⟩
      intro c hc
      exact Option.noConfusion hc
  · simp only [Prod.mk.injEq] at he
    obtain ⟨h1, _h2, h3⟩ := he
    subst h1; subst h3
    refine ⟨fun x hx => hx, ?_, fun _ => rfl⟩
    intro c hc
    exact Option.noConfusion hc

/-- The partition point searched in the sampling loop is strictly within the
distribution whenever the sampled offset satisfies `o < high` and the
distribution's last element is `high`. -/
theorem partitionPoint_lt_length {d : List Nat} {high o : Nat}
    (hne : d ≠ []) (hlast : d.getD (d.length - 1) 0 = high) (ho : o < high) :
    partitionPoint d (fun s => decide (s < high - 1 - o)) < d.length := by
  apply takeWhile_length_lt d _ hne
  have hlen : 0 < d.length := List.length_pos.mpr hne
  have hget : d.getLast hne = d.getD (d.length - 1) 0 := by
    rw [List.getLast_eq_getElem, List.getD_eq_getElem d 0 (by omega)]
  rw [hget, hlast]
  simp only [decide_eq_false_iff_not]
  omega

/-- Every candidate index the sampler accepts refers to an output that exists
at the reference height: it is strictly below `high`. -/
theorem sampleOne_some_lt_high {d : List Nat} {high : Nat} {rng : Rng}
    {u : List Nat} {c : Nat} {rng' : Rng} {u' : List Nat}
    (hs : d.Pairwise (· ≤ ·)) (hlast : d.getD (d.length - 1) 0 = high)
    (he : sampleOne d high rng u = (some c, rng', u')) : c < high := by
  unfold sampleOne Rng.next at he
  simp only [] at he
  split at he
  · split at he
    · rename_i hn
      split at he
      · simp only [Prod.mk.injEq] at he
        exact Option.noConfusion he.1
      · simp only [Prod.mk.injEq] at he
        obtain ⟨h1, _, _⟩ := he
        injection h1 with h1
        set i := partitionPoint d
          (fun s => decide (s < high - 1 - rng.stream rng.pos)) with hi
        by_cases hib : i < d.length
        · have hprev : d.getD (i - 1) 0 ≤ d.getD i 0 :=
            sorted_getD_le hs (Nat.sub_le i 1) hib
          have hle : d.getD i 0 ≤ d.getD (d.length - 1) 0 :=
            sorted_getD_le hs (by omega) (by omega)
          rw [hlast] at hle
          have hmod : rng.stream (rng.pos + 1) %
              (d.getD i 0 - d.getD (i - 1) 0) <
              d.getD i 0 - d.getD (i - 1) 0 :=
            Nat.mod_lt _ (Nat.pos_of_ne_zero hn)
          omega
        · exfalso
          apply hn
          rw [List.getD_eq_default d 0 (by omega)]
          omega
    · simp only [Prod.mk.injEq] at he
      exact Option.noConfusion he.1
  · simp only [Prod.mk.injEq] at he
    exact Option.noConfusion he.1

/-- Invariants of the inner candidate-sampling loop: on success it extends
the accumulator to exactly `rem` pairwise-distinct candidates, every newly
accepted candidate was fresh with respect to the used set at entry, the used
set only grows, and every returned candidate is in the final used set. -/
theorem sampleCandidates_spec {d : List Nat} {high : Nat} :
    ∀ {fuel : Nat} {rng : Rng} {u : List Nat} {rem : Nat} {acc : List Nat}
      {cs : List Nat} {rng' : Rng} {u' : List Nat},
      sampleCandidates d high fuel rng u rem acc = .ok (cs, rng', u') →
      (∀ a ∈ acc, a ∈ u) → acc.Nodup →
      (∃ new, cs = acc ++ new ∧ ∀ c ∈ new, c ∉ u) ∧
      cs.Nodup ∧ cs.length = rem ∧ (∀ x ∈ u, x ∈ u') ∧ (∀ c ∈ cs, c ∈ u') := by
  intro fuel
  induction fuel with
  | zero => intro _ _ _ _ _ _ _ he _ _; exact Except.noConfusion he
  | succ fuel ih =>
    intro rng u rem acc cs rng' u' he hacc hnd
    rw [sampleCandidates] at he
    split at he
    · rename_i hguard
      simp only [Except.ok.injEq, Prod.mk.injEq] at he
      obtain ⟨h1, _, h3⟩ := he
      subst h1; subst h3
      exact ⟨⟨[], by simp, by simp⟩, hnd, hguard, fun x hx => hx, hacc⟩
    · rcases hso : sampleOne d high rng u with ⟨oc, rngm, um⟩
      rw [hso] at he
      obtain ⟨hmono, hsome, hnone⟩ := sampleOne_spec d high rng u hso
      cases oc with
      | none =>
        simp only [] at he
        rw [hnone rfl] at he hmono
        obtain ⟨⟨new, hcs, hnew⟩, h2, h3, h4, h5⟩ := ih he hacc hnd
        exact ⟨⟨new, hcs, hnew⟩, h2, h3, h4, h5⟩
      | some c =>
        simp only [] at he
        obtain ⟨hcu, hum⟩ := hsome c rfl
        have hacc' : ∀ a ∈ acc ++ [c], a ∈ um := by
          intro a ha
          rcases List.mem_append.mp ha with ha | ha
          · exact hmono a (hacc a ha)
          · rw [List.mem_singleton.mp ha, hum]
            exact mem_insertUsed_iff.mpr (Or.inl rfl)
        have hcacc : c ∉ acc := fun hc => hcu (hacc c hc)
        have hnd' : (acc ++ [c]).Nodup := by
          rw [List.nodup_append]
          exact ⟨hnd, List.nodup_singleton c,
            fun a ha hc => hcacc (List.mem_singleton.mp hc ▸ ha)⟩
        obtain ⟨⟨new, hcs, hnew⟩, h2, h3, h4, h5⟩ := ih he hacc' hnd'
        refine ⟨⟨c :: new, by rw [hcs, List.append_assoc]; rfl, ?_⟩, h2, h3,
          fun x hx => h4 x (hmono x hx), h5⟩
        intro x hx
        rcases List.mem_cons.mp hx with rfl | hx
        · exact hcu
        · intro hxu
          exact hnew x hx (hmono x hxu)

theorem mem_zip_filterMap {cands : List Nat} {outs : List (Option OutputData)}
    {p : Nat × OutputData} (hp : p ∈ (cands.zip outs).filterMap
      (fun q => q.2.map (fun dd => (q.1, dd)))) : p.1 ∈ cands := by
  rcases List.mem_filterMap.mp hp with ⟨q, hq, hmap⟩
  rcases q with ⟨a, ob⟩
  cases ob with
  | none => exact Option.noConfusion hmap
  | some b =>
    injection hmap with hmap
    rw [← hmap]
    exact (List.of_mem_zip hq).1

theorem map_fst_zip_filterMap_sublist (cands : List Nat) :
    ∀ outs : List (Option OutputData),
      (((cands.zip outs).filterMap
        (fun q => q.2.map (fun dd => (q.1, dd)))).map Prod.fst).Sublist
        cands := by
  induction cands with
  | nil => intro outs; simp
  | cons c cs ih =>
    intro outs
    cases outs with
    | nil => simp
    | cons ob obs =>
      cases ob with
      | none =>
        simp only [List.zip_cons_cons, List.filterMap_cons, Option.map_none]
        exact (ih obs).cons c
      | some b =>
        simp only [List.zip_cons_cons, List.filterMap_cons, Option.map_some]
        exact (ih obs).cons₂ c

theorem mem_zip_map_eq {α β : Type} (f : α → β) :
    ∀ (l : List α) (a : α) (b : β), (a, b) ∈ l.zip (l.map f) → b = f a := by
  intro l
  induction l with
  | nil => intro a b h; exact absurd h (List.not_mem_nil _)
  | cons c cs ih =>
    intro a b h
    simp only [List.map_cons, List.zip_cons_cons, List.mem_cons] at h
    rcases h with h | h
    · injection h with h1 h2
      rw [h2, h1]
    · exact ih a b h

theorem chain_of_mem_batch {chain : Nat → Option OutputData}
    {cands : List Nat} {p : Nat × OutputData}
    (hp : p ∈ (cands.zip (cands.map chain)).filterMap
      (fun q => q.2.map (fun dd => (q.1, dd)))) : chain p.1 = some p.2 := by
  rcases List.mem_filterMap.mp hp with ⟨q, hq, hmap⟩
  rcases q with ⟨a, ob⟩
  cases ob with
  | none => exact Option.noConfusion hmap
  | some b =>
    injection hmap with hmap
    have := mem_zip_map_eq chain cands a (some b) hq
    rw [← hmap]
    exact this.symm

/-- Invariants of the outer batch-resolution loop of `select_n`: on success
it returns exactly `count` confirmed records with pairwise-distinct indices,
each newly confirmed index was fresh with respect to the used set at entry,
the used set only grows, every confirmed index remains in the final used set,
and (when the RPC is faithful to a chain table) every confirmed record is a
chain entry. -/
theorem selectNAux_spec {rpc : Rpc} {height : Nat} {d : List Nat}
    {high : Nat} :
    ∀ {fuel : Nat} {rng : Rng} {u : List Nat} {count : Nat}
      {confirmed cs : List (Nat × OutputData)} {rng' : Rng} {u' : List Nat},
      selectNAux rpc height d high fuel rng u count confirmed
        = .ok (cs, rng', u') →
      (∀ p ∈ confirmed, p.1 ∈ u) → (confirmed.map Prod.fst).Nodup →
      (∃ new, cs = confirmed ++ new ∧ ∀ p ∈ new, p.1 ∉ u) ∧
      (cs.map Prod.fst).Nodup ∧ cs.length = count ∧
      (∀ x ∈ u, x ∈ u') ∧ (∀ p ∈ cs, p.1 ∈ u') ∧
      (∀ chain : Nat → Option OutputData, OutputsWF rpc chain →
        (∀ p ∈ confirmed, chain p.1 = some p.2) →
        ∀ p ∈ cs, chain p.1 = some p.2) := by
  intro fuel
  induction fuel with
  | zero => intro _ _ _ _ _ _ _ he _ _; exact Except.noConfusion he
  | succ fuel ih =>
    intro rng u count confirmed cs rng' u' he hconf hnd
    rw [selectNAux] at he
    split at he
    · rename_i hguard
      simp only [Except.ok.injEq, Prod.mk.injEq] at he
      obtain ⟨h1, _, h3⟩ := he
      subst h1; subst h3
      exact ⟨⟨[], by simp, by simp⟩, hnd, hguard, fun x hx => hx, hconf,
        fun chain _ hc => hc⟩
    · simp only [] at he
      rcases hsc : sampleCandidates d high fuel rng u
          (count - confirmed.length) [] with e | ⟨cands, rng₁, u₁⟩
      · rw [hsc] at he; exact Except.noConfusion he
      · rw [hsc] at he
        simp only [] at he
        obtain ⟨⟨newc, hcands, hfresh⟩, hcnd, _, hmono1, hcin⟩ :=
          sampleCandidates_spec hsc (by intro a ha; cases ha) List.nodup_nil
        rw [List.nil_append] at hcands
        subst hcands
        rcases hro : rpc.get_outputs cands height with e | outs
        · rw [hro] at he; exact Except.noConfusion he
        · rw [hro] at he
          simp only [] at he
          set batch := (cands.zip outs).filterMap
            (fun q => q.2.map (fun dd => (q.1, dd))) with hbatch
          have hconf' : ∀ p ∈ confirmed ++ batch, p.1 ∈ u₁ := by
            intro p hp
            rcases List.mem_append.mp hp with hp | hp
            · exact hmono1 p.1 (hconf p hp)
            · exact hcin p.1 (mem_zip_filterMap hp)
          have hnd' : ((confirmed ++ batch).map Prod.fst).Nodup := by
            rw [List.map_append, List.nodup_append]
            refine ⟨hnd, (map_fst_zip_filterMap_sublist cands outs).nodup hcnd,
              ?_⟩
            intro a ha hb
            rcases List.mem_map.mp hb with ⟨p, hp, hpa⟩
            have : p.1 ∉ u := hfresh p.1 (mem_zip_filterMap hp)
            rcases List.mem_map.mp ha with ⟨q, hq, hqa⟩
            apply this
            rw [hpa, ← hqa]
            exact hconf q hq
          obtain ⟨⟨new', hcs, hnew'⟩, h2, h3, h4, h5, h6⟩ := ih he hconf' hnd'
          refine ⟨⟨batch ++ new', by rw [hcs, List.append_assoc], ?_⟩, h2, h3,
            fun x hx => h4 x (hmono1 x hx), h5, ?_⟩
          · intro p hp
            rcases List.mem_append.mp hp with hp | hp
            · exact hfresh p.1 (mem_zip_filterMap hp)
            · intro hpu
              exact hnew' p hp (hmono1 p.1 hpu)
          · intro chain hwf hcchain
            apply h6 chain hwf
            intro p hp
            rcases List.mem_append.mp hp with hp | hp
            · exact hcchain p hp
            · have houts := hwf cands height outs hro
              rw [hbatch, houts] at hp
              exact chain_of_mem_batch hp

theorem select_n_spec {rpc : Rpc} {height : Nat} {d : List Nat} {high : Nat}
    {fuel : Nat} {rng : Rng} {u : List Nat} {count : Nat}
    {cs : List (Nat × OutputData)} {rng' : Rng} {u' : List Nat}
    (he : select_n rpc height d high fuel rng u count = .ok (cs, rng', u')) :
    (∀ p ∈ cs, p.1 ∉ u) ∧ (cs.map Prod.fst).Nodup ∧ cs.length = count ∧
    (∀ x ∈ u, x ∈ u') ∧ (∀ p ∈ cs, p.1 ∈ u') ∧
    (∀ chain : Nat → Option OutputData, OutputsWF rpc chain →
      ∀ p ∈ cs, chain p.1 = some p.2) := by
  obtain ⟨⟨new, hcs, hnew⟩, h2, h3, h4, h5, h6⟩ :=
    selectNAux_spec he (fun p hp => absurd hp (List.not_mem_nil p)) (by simp)
  rw [List.nil_append] at hcs
  subst hcs
  exact ⟨hnew, h2, h3, h4, h5, fun chain hwf =>
    h6 chain hwf (fun p hp => absurd hp (List.not_mem_nil p))⟩

/-! ### Sorting and drain lemmas -/

theorem sortRing_perm (l : List (Nat × OutputData)) : (sortRing l).Perm l :=
  List.perm_insertionSort _ l

theorem sortRing_sorted (l : List (Nat × OutputData)) :
    (sortRing l).Pairwise (fun a b => a.1 ≤ b.1) :=
  List.sorted_insertionSort _ l

theorem sortRing_length (l : List (Nat × OutputData)) :
    (sortRing l).length = l.length :=
  (sortRing_perm l).length_eq

theorem mem_sortRing {l : List (Nat × OutputData)} {x : Nat × OutputData} :
    x ∈ sortRing l ↔ x ∈ l :=
  (sortRing_perm l).mem_iff

theorem sortRing_map_fst_nodup {l : List (Nat × OutputData)}
    (h : (l.map Prod.fst).Nodup) : ((sortRing l).map Prod.fst).Nodup :=
  (((sortRing_perm l).map Prod.fst).nodup_iff).mpr h

theorem eraseAll_append (u xs ys : List Nat) :
    eraseAll u (xs ++ ys) = eraseAll (eraseAll u xs) ys :=
  List.foldl_append ..

theorem mem_of_mem_eraseAll :
    ∀ (xs u : List Nat) (y : Nat), y ∈ eraseAll u xs → y ∈ u := by
  intro xs
  induction xs with
  | nil => intro u y hy; exact hy
  | cons x xs ih =>
    intro u y hy
    exact (List.erase_sublist x u).subset (ih (u.erase x) y hy)

theorem mem_eraseAll_of_not_mem :
    ∀ (xs u : List Nat) (y : Nat), y ∈ u → y ∉ xs → y ∈ eraseAll u xs := by
  intro xs
  induction xs with
  | nil => intro u y hy _; exact hy
  | cons x xs ih =>
    intro u y hy hnx
    have hyx : y ≠ x := fun h => hnx (h ▸ List.mem_cons_self x xs)
    exact ih (u.erase x) y ((List.mem_erase_of_ne hyx).mpr hy)
      (fun h => hnx (List.mem_cons_of_mem x h))

theorem drainFold_no_real (o : Nat × OutputData) :
    ∀ (removed : List (Nat × OutputData))
      (rest : List (Nat × OutputData)) (u : List Nat),
      (∀ m ∈ removed, m.1 ≠ o.1) →
      removed.foldl
        (fun s rem =>
          if rem.1 = o.1 then (s.1 ++ [o], s.2) else (s.1, s.2.erase rem.1))
        (rest, u)
        = (rest, eraseAll u (removed.map Prod.fst)) := by
  intro removed
  induction removed with
  | nil => intro rest u _; rfl
  | cons m ms ih =>
    intro rest u h
    simp only [List.foldl_cons]
    rw [if_neg (h m (List.mem_cons_self ..))]
    exact ih rest (u.erase m.1) (fun x hx => h x (List.mem_cons_of_mem _ hx))

theorem drainFold_real (o : Nat × OutputData)
    (l₁ l₂ rest : List (Nat × OutputData)) (u : List Nat)
    (h₁ : ∀ m ∈ l₁, m.1 ≠ o.1) (h₂ : ∀ m ∈ l₂, m.1 ≠ o.1) :
    (l₁ ++ o :: l₂).foldl
      (fun s rem =>
        if rem.1 = o.1 then (s.1 ++ [o], s.2) else (s.1, s.2.erase rem.1))
      (rest, u)
      = (rest ++ [o],
         eraseAll u (l₁.map Prod.fst ++ l₂.map Prod.fst)) := by
  rw [List.foldl_append, drainFold_no_real o l₁ rest u h₁]
  simp only [List.foldl_cons]
  rw [if_pos trivial, drainFold_no_real o l₂ (rest ++ [o]) _ h₂, eraseAll_append]

/-! ### The freshness-repair loop preserves the ring invariant -/

theorem repairRing_spec {chain : Nat → Option OutputData} {rpc : Rpc}
    {height : Nat} {d : List Nat} {high : Nat} {o : Nat × OutputData}
    {P : List Nat} :
    ∀ {fuel : Nat} {rng : Rng} {used : List Nat}
      {ring ring' : List (Nat × OutputData)} {rng' : Rng} {used' : List Nat},
      repairRing rpc height d high o fuel rng used ring
        = .ok (ring', rng', used') →
      RingInv chain rpc o P used ring →
      RingInv chain rpc o P used' ring' ∧
        high * 2 / 3 ≤ (ring'.getD (RING_LEN / 2) (0, default)).1 := by
  intro fuel
  induction fuel with
  | zero => intro _ _ _ _ _ _ he _; exact Except.noConfusion he
  | succ fuel ih =>
    intro rng used ring ring' rng' used' he hinv
    rw [repairRing] at he
    split at he
    · -- median too low: drain, resample, recurse
      simp only [] at he
      have hsplit := List.take_append_drop (RING_LEN / 2) ring
      have hfsts : ((ring.take (RING_LEN / 2)).map Prod.fst).Nodup ∧
          ((ring.drop (RING_LEN / 2)).map Prod.fst).Nodup ∧
          List.Disjoint ((ring.take (RING_LEN / 2)).map Prod.fst)
            ((ring.drop (RING_LEN / 2)).map Prod.fst) := by
        have := hinv.nodup
        rw [← hsplit, List.map_append, List.nodup_append] at this
        exact this
      have hcase : ∃ (ring₁ : List (Nat × OutputData)) (erased : List Nat),
          (ring.take (RING_LEN / 2)).foldl
            (fun s rem =>
              if rem.1 = o.1 then (s.1 ++ [o], s.2)
              else (s.1, s.2.erase rem.1))
            (ring.drop (RING_LEN / 2), used)
            = (ring₁, eraseAll used erased) ∧
          (∀ x ∈ erased, ∃ m ∈ ring.take (RING_LEN / 2), m.1 = x ∧ m ≠ o) ∧
          (∀ m ∈ ring₁, m ∈ ring) ∧ o ∈ ring₁ ∧
          (ring₁.map Prod.fst).Nodup ∧
          (∀ m ∈ ring₁, m.1 ∉ erased) ∧
          ring₁.length ≤ RING_LEN := by
        by_cases ho : o ∈ ring.take (RING_LEN / 2)
        · obtain ⟨l₁, l₂, htk⟩ := List.append_of_mem ho
          have htknodup := hfsts.1
          rw [htk, List.map_append, List.map_cons,
            List.nodup_append] at htknodup
          obtain ⟨hnl₁, hncons, hdisj⟩ := htknodup
          have ho1l₂ : o.1 ∉ l₂.map Prod.fst := (List.nodup_cons.mp hncons).1
          have ho1l₁ : o.1 ∉ l₁.map Prod.fst := fun hx =>
            hdisj hx (List.mem_cons_self ..)
          have h₁ : ∀ m ∈ l₁, m.1 ≠ o.1 := by
            intro m hm heq
            exact ho1l₁ (heq ▸ List.mem_map_of_mem Prod.fst hm)
          have h₂ : ∀ m ∈ l₂, m.1 ≠ o.1 := by
            intro m hm heq
            exact ho1l₂ (heq ▸ List.mem_map_of_mem Prod.fst hm)
          refine ⟨ring.drop (RING_LEN / 2) ++ [o],
            l₁.map Prod.fst ++ l₂.map Prod.fst, ?_, ?_, ?_, ?_, ?_, ?_, ?_⟩
          · rw [htk]
            exact drainFold_real o l₁ l₂ _ used h₁ h₂
          · intro x hx
            rcases List.mem_append.mp hx with hx | hx
            · rcases List.mem_map.mp hx with ⟨m, hm, hmx⟩
              refine ⟨m, ?_, hmx, fun hmo => h₁ m hm (by rw [hmo])⟩
              rw [htk]
              exact List.mem_append.mpr (Or.inl hm)
            · rcases List.mem_map.mp hx with ⟨m, hm, hmx⟩
              refine ⟨m, ?_, hmx, fun hmo => h₂ m hm (by rw [hmo])⟩
              rw [htk]
              exact List.mem_append.mpr
                (Or.inr (List.mem_cons_of_mem _ hm))
          · intro m hm
            rcases List.mem_append.mp hm with hm | hm
            · rw [← hsplit]
              exact List.mem_append.mpr (Or.inr hm)
            · rw [List.mem_singleton.mp hm]
              exact hinv.real_mem
          · exact List.mem_append.mpr (Or.inr (List.mem_singleton.mpr rfl))
          · rw [List.map_append, List.nodup_append]
            refine ⟨hfsts.2.1, by simp, ?_⟩
            intro a ha hb
            rw [List.mem_map] at hb
            obtain ⟨m, hm, hmb⟩ := hb
            rw [List.mem_singleton.mp hm] at hmb
            apply hfsts.2.2 _ ha
            rw [← hmb, htk]
            simp
          · intro m hm hx
            rcases List.mem_append.mp hm with hm | hm
            · apply hfsts.2.2 _ (List.mem_map_of_mem Prod.fst hm)
              rcases List.mem_append.mp hx with hx | hx
              · rw [htk, List.map_append]
                exact List.mem_append.mpr (Or.inl hx)
              · rw [htk, List.map_append, List.map_cons]
                exact List.mem_append.mpr
                  (Or.inr (List.mem_cons_of_mem _ hx))
            · rw [List.mem_singleton.mp hm] at hx
              rcases List.mem_append.mp hx with hx | hx
              · exact ho1l₁ hx
              · exact ho1l₂ hx
          · have h5 : (ring.drop (RING_LEN / 2)).length ≤ ring.length :=
              (List.drop_sublist ..).length_le
            have := hinv.len
            have hlt : 0 < (ring.take (RING_LEN / 2)).length := by
              rw [List.length_take]
              have : 0 < ring.length := List.length_pos.mpr
                (List.ne_nil_of_mem hinv.real_mem)
              simp only [RING_LEN]
              omega
            have hsum : (ring.take (RING_LEN / 2)).length +
                (ring.drop (RING_LEN / 2)).length = ring.length := by
              rw [← List.length_append, hsplit]
            simp only [List.length_append, List.length_singleton]
            omega
        · have h₁ : ∀ m ∈ ring.take (RING_LEN / 2), m.1 ≠ o.1 := by
            intro m hm heq
            apply ho
            have : m = o := hinv.real_uniq m
              ((List.take_sublist ..).subset hm) heq
            exact this ▸ hm
          refine ⟨ring.drop (RING_LEN / 2),
            (ring.take (RING_LEN / 2)).map Prod.fst,
            drainFold_no_real o _ _ used h₁, ?_, ?_, ?_, hfsts.2.1, ?_, ?_⟩
          · intro x hx
            rcases List.mem_map.mp hx with ⟨m, hm, hmx⟩
            exact ⟨m, hm, hmx, fun hmo => ho (hmo ▸ hm)⟩
          · intro m hm
            exact (List.drop_sublist ..).subset hm
          · have := hinv.real_mem
            rw [← hsplit] at this
            rcases List.mem_append.mp this with h | h
            · exact absurd h ho
            · exact h
          · intro m hm
            exact fun hx => hfsts.2.2 hx (List.mem_map_of_mem Prod.fst hm)
          · have := hinv.len
            have := (List.drop_sublist (RING_LEN / 2) ring).length_le
            omega
      obtain ⟨ring₁, erased, hfold, herased, hsubring, horing₁, hnd₁,
        hnoterased, hlen₁⟩ := hcase
      rw [hfold] at he
      simp only [] at he
      have hused₁ : ∀ m ∈ ring₁, m.1 ∈ eraseAll used erased := by
        intro m hm
        exact mem_eraseAll_of_not_mem erased used m.1
          (hinv.mem_used m (hsubring m hm)) (hnoterased m hm)
      have hprot₁ : ∀ x ∈ P, x ∈ eraseAll used erased := by
        intro x hx
        apply mem_eraseAll_of_not_mem erased used x (hinv.prot_sub x hx)
        intro hxe
        obtain ⟨m, hm, hmx, hmo⟩ := herased x hxe
        exact hmo (hinv.decoy_not_prot m ((List.take_sublist ..).subset hm)
          (hmx ▸ hx))
      rcases hsn : select_n rpc height d high fuel rng (eraseAll used erased)
          (RING_LEN - ring₁.length) with e | ⟨extra, rng₁', u₂⟩
      · rw [hsn] at he
        exact Except.noConfusion he
      · rw [hsn] at he
        simp only [] at he
        obtain ⟨hfresh, hnde, hlene, hmono, hinu₂, hchaine⟩ :=
          select_n_spec hsn
        have hring₂ : RingInv chain rpc o P u₂ (sortRing (ring₁ ++ extra)) :=
          { len := by
              rw [sortRing_length, List.length_append, hlene]
              omega
            nodup := by
              apply sortRing_map_fst_nodup
              rw [List.map_append, List.nodup_append]
              refine ⟨hnd₁, hnde, ?_⟩
              intro a ha hb
              rcases List.mem_map.mp ha with ⟨m, hm, hma⟩
              rcases List.mem_map.mp hb with ⟨q, hq, hqa⟩
              apply hfresh q hq
              rw [hqa, ← hma]
              exact hused₁ m hm
            sorted := sortRing_sorted _
            real_mem := mem_sortRing.mpr
              (List.mem_append.mpr (Or.inl horing₁))
            real_uniq := by
              intro m hm heq
              rcases List.mem_append.mp (mem_sortRing.mp hm) with h | h
              · exact hinv.real_uniq m (hsubring m h) heq
              · exact absurd (heq ▸ hused₁ o horing₁) (hfresh m h)
            mem_used := by
              intro m hm
              rcases List.mem_append.mp (mem_sortRing.mp hm) with h | h
              · exact hmono m.1 (hused₁ m h)
              · exact hinu₂ m h
            prot_sub := fun x hx => hmono x (hprot₁ x hx)
            decoy_not_prot := by
              intro m hm hx
              rcases List.mem_append.mp (mem_sortRing.mp hm) with h | h
              · exact hinv.decoy_not_prot m (hsubring m h) hx
              · exact absurd (hprot₁ m.1 hx) (hfresh m h)
            decoy_chain := by
              intro hwf m hm hmo
              rcases List.mem_append.mp (mem_sortRing.mp hm) with h | h
              · exact hinv.decoy_chain hwf m (hsubring m h) hmo
              · exact hchaine chain hwf m h }
        exact ih he hring₂
    · -- median already high enough
      rename_i hmed
      simp only [Except.ok.injEq, Prod.mk.injEq] at he
      obtain ⟨h1, _, h3⟩ := he
      subst h1; subst h3
      exact ⟨hinv, Nat.le_of_not_lt hmed⟩

/-! ### The per-input assembly loop -/

theorem RingFacts.mono {chain : Nat → Option OutputData} {rpc : Rpc}
    {high : Nat} {o : Nat × OutputData} {P Q : List Nat}
    {ring : List (Nat × OutputData)} (hPQ : ∀ x ∈ P, x ∈ Q)
    (h : RingFacts chain rpc high o Q ring) :
    RingFacts chain rpc high o P ring :=
  { h with
    decoy_not_prot := fun m hm hx => h.decoy_not_prot m hm (hPQ m.1 hx) }

/-- The candidate ring built from the drained pool tail and the real output
satisfies the repair-loop invariant, with the unconsumed pool protected. -/
theorem initialRingInv {chain : Nat → Option OutputData} {rpc : Rpc}
    {o : Nat × OutputData} {P used : List Nat}
    {pool : List (Nat × OutputData)}
    (hnd : (pool.map Prod.fst).Nodup)
    (hpu : ∀ p ∈ pool, p.1 ∈ used)
    (hpnotP : ∀ p ∈ pool, p.1 ∉ P)
    (hprot : ∀ x ∈ P, x ∈ used)
    (hoP : o.1 ∈ P)
    (hpoollen : DECOYS ≤ pool.length)
    (hchain : OutputsWF rpc chain → ∀ p ∈ pool, chain p.1 = some p.2) :
    RingInv chain rpc o
      (P ++ (pool.take (pool.length - DECOYS)).map Prod.fst) used
      (sortRing (pool.drop (pool.length - DECOYS) ++ [o])) := by
  have htk := List.take_append_drop (pool.length - DECOYS) pool
  have hnd2 : ((pool.take (pool.length - DECOYS)).map Prod.fst).Nodup ∧
      ((pool.drop (pool.length - DECOYS)).map Prod.fst).Nodup ∧
      List.Disjoint ((pool.take (pool.length - DECOYS)).map Prod.fst)
        ((pool.drop (pool.length - DECOYS)).map Prod.fst) := by
    have h := hnd
    rw [← htk, List.map_append, List.nodup_append] at h
    exact h
  have hdsub : ∀ m ∈ pool.drop (pool.length - DECOYS), m ∈ pool :=
    fun m hm => (List.drop_sublist ..).subset hm
  have hksub : ∀ m ∈ pool.take (pool.length - DECOYS), m ∈ pool :=
    fun m hm => (List.take_sublist ..).subset hm
  have hofst : ∀ p ∈ pool, p.1 ≠ o.1 := by
    intro p hp heq
    exact hpnotP p hp (heq ▸ hoP)
  have hdlen : (pool.drop (pool.length - DECOYS)).length = DECOYS := by
    rw [List.length_drop]
    omega
  refine
    { len := ?_, nodup := ?_, sorted := sortRing_sorted _, real_mem := ?_,
      real_uniq := ?_, mem_used := ?_, prot_sub := ?_,
      decoy_not_prot := ?_, decoy_chain := ?_ }
  · rw [sortRing_length, List.length_append, hdlen]
    rfl
  · apply sortRing_map_fst_nodup
    rw [List.map_append, List.nodup_append]
    refine ⟨hnd2.2.1, by simp, ?_⟩
    intro a ha hb
    rcases List.mem_map.mp ha with ⟨m, hm, hma⟩
    rw [List.map_singleton, List.mem_singleton] at hb
    exact hofst m (hdsub m hm) (hma.symm ▸ hb)
  · exact mem_sortRing.mpr (List.mem_append.mpr (Or.inr (by simp)))
  · intro m hm heq
    rcases List.mem_append.mp (mem_sortRing.mp hm) with h | h
    · exact absurd heq (hofst m (hdsub m h))
    · exact List.mem_singleton.mp h
  · intro m hm
    rcases List.mem_append.mp (mem_sortRing.mp hm) with h | h
    · exact hpu m (hdsub m h)
    · rw [List.mem_singleton.mp h]
      exact hprot o.1 hoP
  · intro x hx
    rcases List.mem_append.mp hx with h | h
    · exact hprot x h
    · rcases List.mem_map.mp h with ⟨m, hm, hma⟩
      exact hma ▸ hpu m (hksub m hm)
  · intro m hm hx
    rcases List.mem_append.mp (mem_sortRing.mp hm) with h | h
    · exfalso
      rcases List.mem_append.mp hx with hx | hx
      · exact hpnotP m (hdsub m h) hx
      · rcases List.mem_map.mp hx with ⟨q, hq, hqa⟩
        exact hnd2.2.2 (hqa ▸ List.mem_map_of_mem Prod.fst hq)
          (List.mem_map_of_mem Prod.fst h)
    · exact List.mem_singleton.mp h
  · intro hwf m hm hmo
    rcases List.mem_append.mp (mem_sortRing.mp hm) with h | h
    · exact hchain hwf m (hdsub m h)
    · exact absurd (List.mem_singleton.mp h) hmo

/-- Master invariant of the per-input assembly loop: each produced `Decoys`
comes from a finalized ring satisfying `RingFacts`, rings never touch the
protected set except through their own real spend, and distinct rings can
only share an index that is both their real spends' index. -/
theorem assembleRings_spec {chain : Nat → Option OutputData} {rpc : Rpc}
    {height : Nat} {d : List Nat} {high : Nat} :
    ∀ (os : List (Nat × OutputData)) (P : List Nat) (fuel : Nat) (rng : Rng)
      (used : List Nat) (pool : List (Nat × OutputData)) (out : AssembleOut),
      assembleRings rpc height d high fuel rng used pool os = .ok out →
      (pool.map Prod.fst).Nodup →
      (∀ p ∈ pool, p.1 ∈ used) →
      (∀ p ∈ pool, p.1 ∉ P) →
      (∀ x ∈ P, x ∈ used) →
      (∀ q ∈ os, q.1 ∈ P) →
      pool.length = os.length * DECOYS →
      (OutputsWF rpc chain → ∀ p ∈ pool, chain p.1 = some p.2) →
      ∃ rings : List (List (Nat × OutputData)),
        rings.length = os.length ∧
        out.res = (os.zip rings).map (fun q => mkDecoys q.1 q.2) ∧
        (∀ k (hk : k < os.length),
          RingFacts chain rpc high (os.get ⟨k, hk⟩) P (rings.getD k []) ∧
          ∀ m ∈ rings.getD k [], m.1 ∈ out.used) ∧
        (∀ x ∈ P, x ∈ out.used) ∧
        List.Pairwise
          (fun a b => ∀ x, x ∈ a.2.map Prod.fst → x ∈ b.2.map Prod.fst →
            x = a.1.1 ∧ x = b.1.1)
          (os.zip rings) := by
  intro os
  induction os with
  | nil =>
    intro P fuel rng used pool out he _ _ _ hprot _ _ _
    rw [assembleRings] at he
    simp only [Except.ok.injEq] at he
    subst he
    exact ⟨[], rfl, rfl, fun k hk => absurd hk (Nat.not_lt_zero k), hprot,
      List.Pairwise.nil⟩
  | cons o rest ih =>
    intro P fuel rng used pool out he hnd hpu hpnotP hprot hreals hdlen hchain
    rw [assembleRings] at he
    have hpoollen : DECOYS ≤ pool.length := by
      rw [hdlen, List.length_cons]
      simp only [DECOYS, RING_LEN]
      omega
    have hinv₀ : RingInv chain rpc o
        (P ++ (pool.take (pool.length - DECOYS)).map Prod.fst) used
        (sortRing (pool.drop (pool.length - DECOYS) ++ [o])) :=
      initialRingInv hnd hpu hpnotP hprot (hreals o (List.mem_cons_self ..))
        hpoollen hchain
    rcases hrep : (if 500 < high then
        repairRing rpc height d high o fuel rng used
          (sortRing (pool.drop (pool.length - DECOYS) ++ [o]))
      else .ok (sortRing (pool.drop (pool.length - DECOYS) ++ [o]), rng,
        used)) with e | ⟨ringF, rngF, usedF⟩
    · rw [hrep] at he
      exact Except.noConfusion he
    · rw [hrep] at he
      simp only [] at he
      have hstep : RingInv chain rpc o
          (P ++ (pool.take (pool.length - DECOYS)).map Prod.fst) usedF
            ringF ∧
          (500 < high →
            high * 2 / 3 ≤ (ringF.getD (RING_LEN / 2) (0, default)).1) := by
        by_cases hhigh : 500 < high
        · rw [if_pos hhigh] at hrep
          obtain ⟨hi, hm⟩ := repairRing_spec hrep hinv₀
          exact ⟨hi, fun _ => hm⟩
        · rw [if_neg hhigh] at hrep
          simp only [Except.ok.injEq, Prod.mk.injEq] at hrep
          obtain ⟨h1, _, h3⟩ := hrep
          subst h1
          subst h3
          exact ⟨hinv₀, fun hh => absurd hh hhigh⟩
      obtain ⟨hinvF, hmedF⟩ := hstep
      rcases hrest : assembleRings rpc height d high fuel rngF usedF
          (pool.take (pool.length - DECOYS)) rest with e | out₂
      · rw [hrest] at he
        exact Except.noConfusion he
      · rw [hrest] at he
        simp only [Except.ok.injEq] at he
        subst he
        have hpksub : ∀ p ∈ pool.take (pool.length - DECOYS), p ∈ pool :=
          fun p hp => (List.take_sublist ..).subset hp
        have hpk_nd :
            ((pool.take (pool.length - DECOYS)).map Prod.fst).Nodup :=
          ((List.take_sublist ..).map Prod.fst).nodup hnd
        have hpu' : ∀ p ∈ pool.take (pool.length - DECOYS), p.1 ∈ usedF := by
          intro p hp
          exact hinvF.prot_sub p.1
            (List.mem_append.mpr (Or.inr (List.mem_map_of_mem Prod.fst hp)))
        have hpnotP' : ∀ p ∈ pool.take (pool.length - DECOYS),
            p.1 ∉ P ++ ringF.map Prod.fst := by
          intro p hp hx
          rcases List.mem_append.mp hx with hx | hx
          · exact hpnotP p (hpksub p hp) hx
          · rcases List.mem_map.mp hx with ⟨m, hm, hma⟩
            have hmo : m = o := by
              apply hinvF.decoy_not_prot m hm
              apply List.mem_append.mpr
              refine Or.inr ?_
              rw [hma]
              exact List.mem_map_of_mem Prod.fst hp
            apply hpnotP p (hpksub p hp)
            have hpo : p.1 = o.1 := by rw [← hma, hmo]
            rw [hpo]
            exact hreals o (List.mem_cons_self ..)
        have hprot' : ∀ x ∈ P ++ ringF.map Prod.fst, x ∈ usedF := by
          intro x hx
          rcases List.mem_append.mp hx with hx | hx
          · exact hinvF.prot_sub x (List.mem_append.mpr (Or.inl hx))
          · rcases List.mem_map.mp hx with ⟨m, hm, hma⟩
            exact hma ▸ hinvF.mem_used m hm
        have hreals' : ∀ q ∈ rest, q.1 ∈ P ++ ringF.map Prod.fst :=
          fun q hq => List.mem_append.mpr
            (Or.inl (hreals q (List.mem_cons_of_mem _ hq)))
        have hdlen' : (pool.take (pool.length - DECOYS)).length
            = rest.length * DECOYS := by
          rw [List.length_take, hdlen, List.length_cons]
          simp only [DECOYS, RING_LEN]
          omega
        have hchain' : OutputsWF rpc chain →
            ∀ p ∈ pool.take (pool.length - DECOYS),
              chain p.1 = some p.2 :=
          fun hwf p hp => hchain hwf p (hpksub p hp)
        obtain ⟨rings₂, hlen₂, hres₂, hfacts₂, hprotout₂, hpair₂⟩ :=
          ih (P ++ ringF.map Prod.fst) fuel rngF usedF
            (pool.take (pool.length - DECOYS)) out₂ hrest hpk_nd hpu'
            hpnotP' hprot' hreals' hdlen' hchain'
        have hfactsF : RingFacts chain rpc high o P ringF := by
          have hQ : RingFacts chain rpc high o
              (P ++ (pool.take (pool.length - DECOYS)).map Prod.fst) ringF :=
            { len := hinvF.len, nodup := hinvF.nodup, sorted := hinvF.sorted,
              real_mem := hinvF.real_mem, real_uniq := hinvF.real_uniq,
              decoy_not_prot := hinvF.decoy_not_prot,
              decoy_chain := hinvF.decoy_chain, median := hmedF }
          exact RingFacts.mono (fun x hx => List.mem_append.mpr (Or.inl hx))
            hQ
        refine ⟨ringF :: rings₂, by simp [hlen₂], ?_, ?_, ?_, ?_⟩
        · show mkDecoys o ringF :: out₂.res = _
          rw [hres₂, List.zip_cons_cons, List.map_cons]
        · intro k hk
          cases k with
          | zero =>
            refine ⟨hfactsF, ?_⟩
            intro m hm
            show m.1 ∈ out₂.used
            exact hprotout₂ m.1
              (List.mem_append.mpr (Or.inr (List.mem_map_of_mem Prod.fst hm)))
          | succ k =>
            have hk' : k < rest.length := by
              rw [List.length_cons] at hk
              omega
            obtain ⟨hf, hu⟩ := hfacts₂ k hk'
            refine ⟨?_, ?_⟩
            · rw [List.getD_cons_succ]
              exact RingFacts.mono
                (fun x hx => List.mem_append.mpr (Or.inl hx)) hf
            · rw [List.getD_cons_succ]
              exact hu
        · intro x hx
          exact hprotout₂ x (List.mem_append.mpr (Or.inl hx))
        · rw [List.zip_cons_cons]
          refine List.pairwise_cons.mpr ⟨?_, hpair₂⟩
          intro b hb x hxa hxb
          obtain ⟨kk, hkk, hbeq⟩ := List.getElem_of_mem hb
          have hkk2 : kk < rest.length := by
            rw [List.length_zip] at hkk
            omega
          have hkk3 : kk < rings₂.length := by
            rw [List.length_zip] at hkk
            omega
          have hb1 : b.1 = rest[kk] := by
            rw [← hbeq, List.getElem_zip]
          have hb2 : b.2 = rings₂.getD kk [] := by
            rw [← hbeq, List.getElem_zip, List.getD_eq_getElem rings₂ [] hkk3]
          obtain ⟨hfk, _⟩ := hfacts₂ kk hkk2
          -- x is a member index of b's ring; protected by ringF's indices
          rcases List.mem_map.mp hxb with ⟨mb, hmb, hmbx⟩
          rw [hb2] at hmb
          have hmbP : mb = rest.get ⟨kk, hkk2⟩ := by
            apply hfk.decoy_not_prot mb hmb
            apply List.mem_append.mpr
            refine Or.inr ?_
            rw [hmbx]
            exact hxa
          have hxb1 : x = b.1.1 := by
            rw [← hmbx, hmbP, hb1]
            rfl
          -- x is also a member index of ringF; it equals a real index, so
          -- ringF's unique protected member, the real spend o
          rcases List.mem_map.mp hxa with ⟨ma, hma, hmax⟩
          have hmaP : ma = o := by
            apply hfactsF.decoy_not_prot ma hma
            rw [hmax, hxb1, hb1]
            exact hreals rest[kk] (List.mem_cons_of_mem _ (rest.getElem_mem hkk2))
          refine ⟨?_, hxb1⟩
          rw [← hmax, hmaP]

/-! ### Lemmas about `select` itself -/

theorem resolveInputs_length {rpc : Rpc} :
    ∀ {inputs : List SpendableOutput} {outputs : List (Nat × OutputData)},
      resolveInputs rpc inputs = .ok outputs →
      outputs.length = inputs.length := by
  intro inputs
  induction inputs with
  | nil =>
    intro outputs he
    rw [resolveInputs] at he
    simp only [Except.ok.injEq] at he
    subst he
    rfl
  | cons input rest ih =>
    intro outputs he
    rw [resolveInputs] at he
    rcases h1 : rpc.get_o_indexes input.tx with e | idxs
    · rw [h1] at he
      exact Except.noConfusion he
    · rw [h1] at he
      rcases h2 : resolveInputs rpc rest with e | tail
      · rw [h2] at he
        exact Except.noConfusion he
      · rw [h2] at he
        simp only [Except.ok.injEq] at he
        subst he
        simp [ih h2]

/-- Membership in the seeded used set: exactly the real spends' indices. -/
theorem mem_seedUsed :
    ∀ (outputs : List (Nat × OutputData)) (acc : List Nat) (x : Nat),
      x ∈ outputs.foldl (fun u q => insertUsed u q.1) acc ↔
        x ∈ acc ∨ x ∈ outputs.map Prod.fst := by
  intro outputs
  induction outputs with
  | nil => intro acc x; simp
  | cons q rest ih =>
    intro acc x
    simp only [List.foldl_cons, List.map_cons, List.mem_cons]
    rw [ih (insertUsed acc q.1) x, mem_insertUsed_iff]
    tauto

/-- The honest chain RPC is faithful to its chain table. -/
theorem ofChain_wf (dist : List Nat) (chain : Nat → Option OutputData)
    (oidx : Nat → List Nat) : OutputsWF (Rpc.ofChain dist chain oidx) chain := by
  intro cs h outs he
  simp only [Rpc.ofChain] at he
  injection he with he
  exact he.symm

/-- Pulling the full pipeline together: whenever `select` succeeds and we can
name the resolved inputs and the fetched distribution, every returned
`Decoys` arises as `mkDecoys` of a finalized ring satisfying `RingFacts`
relative to the set of all real-spend indices, and distinct rings overlap at
most in an index that is both rings' real-spend index. -/
theorem select_ok_spec {chain : Nat → Option OutputData} {rpc : Rpc}
    {height fuel : Nat} {rng : Rng} {inputs : List SpendableOutput}
    {outputs : List (Nat × OutputData)} {dist : List Nat} {res : List Decoys}
    (hres : resolveInputs rpc inputs = .ok outputs)
    (hdist : rpc.get_output_distribution height = .ok dist)
    (he : select rpc height fuel rng inputs = .ok res) :
    ∃ rings : List (List (Nat × OutputData)),
      rings.length = outputs.length ∧
      outputs.length = inputs.length ∧
      res = (outputs.zip rings).map (fun q => mkDecoys q.1 q.2) ∧
      (∀ k (hk : k < outputs.length),
        RingFacts chain rpc (dist.getD (dist.length - 1) 0)
          (outputs.get ⟨k, hk⟩) (outputs.map Prod.fst) (rings.getD k [])) ∧
      List.Pairwise
        (fun a b => ∀ x, x ∈ a.2.map Prod.fst → x ∈ b.2.map Prod.fst →
          x = a.1.1 ∧ x = b.1.1)
        (outputs.zip rings) := by
  rw [select, hres, hdist] at he
  simp only [] at he
  split at he
  · exact Except.noConfusion he
  · split at he
    · exact Except.noConfusion he
    · rcases hsn : select_n rpc height dist
          (dist.getD (dist.length - 1) 0) fuel rng
          (outputs.foldl (fun u q => insertUsed u q.1) [])
          (inputs.length * DECOYS) with e | ⟨pool, rng₁, used₁⟩
      · rw [hsn] at he
        exact Except.noConfusion he
      · rw [hsn] at he
        simp only [] at he
        rcases hasm : assembleRings rpc height dist
            (dist.getD (dist.length - 1) 0) fuel rng₁ used₁ pool outputs
          with e | out
        · rw [hasm] at he
          exact Except.noConfusion he
        · rw [hasm] at he
          simp only [Except.ok.injEq] at he
          obtain ⟨hfresh, hndp, hlenp, hmono, hinp, hchainp⟩ :=
            select_n_spec hsn
          have hlen_out : outputs.length = inputs.length :=
            resolveInputs_length hres
          obtain ⟨rings, h1, h2, h3, _, h5⟩ :=
            assembleRings_spec outputs (outputs.map Prod.fst) fuel rng₁
              used₁ pool out hasm hndp
              (fun p hp => hinp p hp)
              (fun p hp hx => hfresh p hp
                ((mem_seedUsed outputs [] p.1).mpr (Or.inr hx)))
              (fun x hx => hmono x
                ((mem_seedUsed outputs [] x).mpr (Or.inr hx)))
              (fun q hq => List.mem_map_of_mem Prod.fst hq)
              (by rw [hlenp, hlen_out])
              (fun hwf p hp => hchainp chain hwf p hp)
          refine ⟨rings, h1, hlen_out, ?_, fun k hk => (h3 k hk).1, h5⟩
          rw [← he, h2]

/-! ### From ring facts to the published artifact -/

theorem mkDecoys_facts {chain : Nat → Option OutputData} {rpc : Rpc}
    {high : Nat} {o : Nat × OutputData} {P : List Nat}
    {ring : List (Nat × OutputData)}
    (hf : RingFacts chain rpc high o P ring) :
    (mkDecoys o ring).offsets.length = RING_LEN ∧
    (mkDecoys o ring).ring.length = RING_LEN ∧
    decode (mkDecoys o ring).offsets = ring.map Prod.fst ∧
    (mkDecoys o ring).i < RING_LEN ∧
    (mkDecoys o ring).ring.getD (mkDecoys o ring).i default = o.2 ∧
    (mkDecoys o ring).i =
      (decode (mkDecoys o ring).offsets).countP
        (fun x => decide (x < o.1)) ∧
    (decode (mkDecoys o ring).offsets).Nodup := by
  have hsorted_fst : (ring.map Prod.fst).Pairwise (· ≤ ·) :=
    List.pairwise_map.mpr hf.sorted
  have hdecode : decode (mkDecoys o ring).offsets = ring.map Prod.fst :=
    decode_offset (ring.map Prod.fst) hsorted_fst.chain'
  obtain ⟨hpp, hget⟩ :=
    getD_partitionPoint_eq hf.sorted hf.real_mem hf.real_uniq (0, default)
  have hpp' : (mkDecoys o ring).i < RING_LEN := by
    rw [mkDecoys]
    rw [hf.len] at hpp
    exact hpp
  refine ⟨?_, ?_, hdecode, hpp', ?_, ?_, ?_⟩
  · rw [mkDecoys, offset_length, List.length_map, hf.len]
  · rw [mkDecoys, List.length_map, hf.len]
  · show (ring.map Prod.snd).getD (mkDecoys o ring).i default = o.2
    have hlt : (mkDecoys o ring).i < (ring.map Prod.snd).length := by
      rw [List.length_map, hf.len]
      exact hpp'
    rw [List.getD_eq_getElem _ default hlt, List.getElem_map]
    have hlt2 : (mkDecoys o ring).i < ring.length := by
      rw [hf.len]
      exact hpp'
    have : ring[(mkDecoys o ring).i] = o := by
      rw [← List.getD_eq_getElem ring (0, default) hlt2]
      exact hget
    rw [this]
  · show partitionPoint ring (fun x => decide (x.1 < o.1)) = _
    rw [hdecode, partitionPoint_eq_countP Prod.fst o.1 ring hf.sorted,
      List.countP_map]
    rfl
  · rw [hdecode]
    exact hf.nodup

theorem mkDecoys_median {chain : Nat → Option OutputData} {rpc : Rpc}
    {high : Nat} {o : Nat × OutputData} {P : List Nat}
    {ring : List (Nat × OutputData)}
    (hf : RingFacts chain rpc high o P ring) (hhigh : 500 < high) :
    high * 2 / 3 ≤
      (decode (mkDecoys o ring).offsets).getD (RING_LEN / 2) 0 := by
  have hsorted_fst : (ring.map Prod.fst).Pairwise (· ≤ ·) :=
    List.pairwise_map.mpr hf.sorted
  have hdecode : decode (mkDecoys o ring).offsets = ring.map Prod.fst :=
    decode_offset (ring.map Prod.fst) hsorted_fst.chain'
  rw [hdecode]
  have hlt : RING_LEN / 2 < (ring.map Prod.fst).length := by
    rw [List.length_map, hf.len]
    simp [RING_LEN]
  have hlt2 : RING_LEN / 2 < ring.length := by
    rw [hf.len]
    simp [RING_LEN]
  rw [List.getD_eq_getElem _ 0 hlt, List.getElem_map]
  have := hf.median hhigh
  rw [List.getD_eq_getElem ring (0, default) hlt2] at this
  exact this

theorem countP_eq_one_of_nodup_mem {α : Type} :
    ∀ (l : List α) (a : α) (p : α → Bool),
      (∀ x ∈ l, p x = true ↔ x = a) → l.Nodup → a ∈ l →
      l.countP p = 1 := by
  intro l
  induction l with
  | nil => intro a p _ _ ha; exact absurd ha (List.not_mem_nil a)
  | cons x xs ih =>
    intro a p hp hnd ha
    obtain ⟨hx, hxs⟩ := List.nodup_cons.mp hnd
    by_cases hxa : x = a
    · subst hxa
      rw [List.countP_cons_of_pos p _ ((hp x (List.mem_cons_self ..)).mpr
        rfl)]
      have : xs.countP p = 0 := by
        rw [List.countP_eq_zero]
        intro y hy hpy
        exact hx ((hp y (List.mem_cons_of_mem x hy)).mp hpy ▸ hy)
      rw [this]
    · rw [List.countP_cons_of_neg p _ (by
        intro hpx
        exact hxa ((hp x (List.mem_cons_self ..)).mp hpx))]
      have ha' : a ∈ xs := by
        rcases List.mem_cons.mp ha with h | h
        · exact absurd h.symm hxa
        · exact h
      exact ih a p (fun y hy => hp y (List.mem_cons_of_mem x hy)) hxs ha'

theorem ring_count_real {chain : Nat → Option OutputData} {rpc : Rpc}
    {high : Nat} {o : Nat × OutputData} {P : List Nat}
    {ring : List (Nat × OutputData)}
    (hf : RingFacts chain rpc high o P ring) (hwf : OutputsWF rpc chain)
    (hrealo : chain o.1 = some o.2)
    (hinj : ∀ i j dd, chain i = some dd → chain j = some dd → i = j) :
    (mkDecoys o ring).ring.count o.2 = 1 := by
  show (ring.map Prod.snd).count o.2 = 1
  rw [List.count_eq_countP, List.countP_map]
  apply countP_eq_one_of_nodup_mem ring o
  · intro m hm
    simp only [Function.comp, beq_iff_eq]
    constructor
    · intro hmo
      by_cases hne : m = o
      · exact hne
      · exfalso
        have hc : chain m.1 = some m.2 := hf.decoy_chain hwf m hm hne
        rw [hmo] at hc
        exact hne (hf.real_uniq m hm (hinj m.1 o.1 o.2 hc hrealo))
    · intro hme
      rw [hme]
  · exact hf.nodup.of_map ..
  · exact hf.real_mem

/-! ### Error classification: the loops only fail with fuel or RPC errors -/

theorem sampleCandidates_error_fuel {d : List Nat} {high : Nat} :
    ∀ {fuel : Nat} {rng : Rng} {u : List Nat} {rem : Nat} {acc : List Nat}
      {e : SelErr},
      sampleCandidates d high fuel rng u rem acc = .error e → e = .fuel := by
  intro fuel
  induction fuel with
  | zero =>
    intro _ _ _ _ _ he
    injection he with he
    exact he.symm
  | succ fuel ih =>
    intro rng u rem acc e he
    rw [sampleCandidates] at he
    split at he
    · exact Except.noConfusion he
    · rcases hso : sampleOne d high rng u with ⟨oc, rngm, um⟩
      rw [hso] at he
      cases oc with
      | none => exact ih he
      | some c => exact ih he

theorem selectNAux_error_shape {rpc : Rpc} {height : Nat} {d : List Nat}
    {high : Nat} :
    ∀ {fuel : Nat} {rng : Rng} {u : List Nat} {count : Nat}
      {confirmed : List (Nat × OutputData)} {e : SelErr},
      selectNAux rpc height d high fuel rng u count confirmed = .error e →
      e = .fuel ∨ ∃ er, e = .rpc er := by
  intro fuel
  induction fuel with
  | zero =>
    intro _ _ _ _ _ he
    injection he with he
    exact Or.inl he.symm
  | succ fuel ih =>
    intro rng u count confirmed e he
    rw [selectNAux] at he
    split at he
    · exact Except.noConfusion he
    · simp only [] at he
      rcases hsc : sampleCandidates d high fuel rng u
          (count - confirmed.length) [] with e₁ | ⟨cands, rng₁, u₁⟩
      · rw [hsc] at he
        injection he with he
        exact Or.inl (he ▸ sampleCandidates_error_fuel hsc)
      · rw [hsc] at he
        simp only [] at he
        rcases hro : rpc.get_outputs cands height with e₂ | outs
        · rw [hro] at he
          injection he with he
          exact Or.inr ⟨e₂, he.symm⟩
        · rw [hro] at he
          exact ih he

theorem repairRing_error_shape {rpc : Rpc} {height : Nat} {d : List Nat}
    {high : Nat} {o : Nat × OutputData} :
    ∀ {fuel : Nat} {rng : Rng} {u : List Nat}
      {ring : List (Nat × OutputData)} {e : SelErr},
      repairRing rpc height d high o fuel rng u ring = .error e →
      e = .fuel ∨ ∃ er, e = .rpc er := by
  intro fuel
  induction fuel with
  | zero =>
    intro _ _ _ _ he
    injection he with he
    exact Or.inl he.symm
  | succ fuel ih =>
    intro rng u ring e he
    rw [repairRing] at he
    split at he
    · simp only [] at he
      rcases hsn : select_n rpc height d high fuel rng
          ((ring.take (RING_LEN / 2)).foldl
            (fun s rem =>
              if rem.1 = o.1 then (s.1 ++ [o], s.2)
              else (s.1, s.2.erase rem.1))
            (ring.drop (RING_LEN / 2), u)).2
          (RING_LEN -
            ((ring.take (RING_LEN / 2)).foldl
              (fun s rem =>
                if rem.1 = o.1 then (s.1 ++ [o], s.2)
                else (s.1, s.2.erase rem.1))
              (ring.drop (RING_LEN / 2), u)).1.length)
          with e₁ | ⟨extra, rng₁, u₁⟩
      · rw [hsn] at he
        injection he with he
        exact he ▸ selectNAux_error_shape hsn
      · rw [hsn] at he
        exact ih he
    · exact Except.noConfusion he

theorem assembleRings_error_shape {rpc : Rpc} {height : Nat} {d : List Nat}
    {high : Nat} :
    ∀ (os : List (Nat × OutputData)) {fuel : Nat} {rng : Rng} {u : List Nat}
      {pool : List (Nat × OutputData)} {e : SelErr},
      assembleRings rpc height d high fuel rng u pool os = .error e →
      e = .fuel ∨ ∃ er, e = .rpc er := by
  intro os
  induction os with
  | nil =>
    intro _ _ _ _ _ he
    rw [assembleRings] at he
    exact Except.noConfusion he
  | cons o rest ih =>
    intro fuel rng u pool e he
    rw [assembleRings] at he
    rcases hrep : (if 500 < high then
        repairRing rpc height d high o fuel rng u
          (sortRing (pool.drop (pool.length - DECOYS) ++ [o]))
      else .ok (sortRing (pool.drop (pool.length - DECOYS) ++ [o]), rng, u))
      with e₁ | ⟨ringF, rngF, usedF⟩
    · rw [hrep] at he
      injection he with he
      subst he
      by_cases hhigh : 500 < high
      · rw [if_pos hhigh] at hrep
        exact repairRing_error_shape hrep
      · rw [if_neg hhigh] at hrep
        exact Except.noConfusion hrep
    · rw [hrep] at he
      simp only [] at he
      rcases hrest : assembleRings rpc height d high fuel rngF usedF
          (pool.take (pool.length - DECOYS)) rest with e₂ | out₂
      · rw [hrest] at he
        injection he with he
        exact he ▸ ih hrest
      · rw [hrest] at he
        exact Except.noConfusion he

/-- Element-wise repackaging of `select_ok_spec`: the `k`-th returned
`Decoys` is `mkDecoys` of the `k`-th real output and a ring with
`RingFacts`, and two distinct rings only share an index that is both their
real-spend indices. -/
theorem select_ok_elem {chain : Nat → Option OutputData} {rpc : Rpc}
    {height fuel : Nat} {rng : Rng} {inputs : List SpendableOutput}
    {outputs : List (Nat × OutputData)} {dist : List Nat} {res : List Decoys}
    (hres : resolveInputs rpc inputs = .ok outputs)
    (hdist : rpc.get_output_distribution height = .ok dist)
    (he : select rpc height fuel rng inputs = .ok res) :
    res.length = inputs.length ∧ res.length = outputs.length ∧
    ∃ rings : List (List (Nat × OutputData)),
      (∀ k (hk : k < res.length),
        res.get ⟨k, hk⟩
          = mkDecoys (outputs.getD k (0, default)) (rings.getD k []) ∧
        RingFacts chain rpc (dist.getD (dist.length - 1) 0)
          (outputs.getD k (0, default)) (outputs.map Prod.fst)
          (rings.getD k [])) ∧
      (∀ k k', k < res.length → k' < res.length → k ≠ k' →
        ∀ x, x ∈ (rings.getD k []).map Prod.fst →
          x ∈ (rings.getD k' []).map Prod.fst →
          x = (outputs.getD k (0, default)).1 ∧
          x = (outputs.getD k' (0, default)).1) := by
  obtain ⟨rings, h1, h2, h3, h4, h5⟩ := select_ok_spec hres hdist he
  have hlen : res.length = outputs.length := by
    rw [h3, List.length_map, List.length_zip, h1, Nat.min_self]
  have hzlen : (outputs.zip rings).length = outputs.length := by
    rw [List.length_zip, h1, Nat.min_self]
  have hget : ∀ k (hk : k < res.length),
      res.get ⟨k, hk⟩
        = mkDecoys (outputs.getD k (0, default)) (rings.getD k []) := by
    intro k hk
    have hko : k < outputs.length := hlen ▸ hk
    have hkr : k < rings.length := by rw [h1]; exact hko
    have hkz : k < (outputs.zip rings).length := by rw [hzlen]; exact hko
    have hkm : k < ((outputs.zip rings).map
        (fun q => mkDecoys q.1 q.2)).length := by
      rw [List.length_map]
      exact hkz
    have hgetD : res.get ⟨k, hk⟩ = res.getD k default :=
      (List.getD_eq_getElem res default hk).symm
    rw [hgetD, h3, List.getD_eq_getElem _ default hkm, List.getElem_map,
      List.getElem_zip, List.getD_eq_getElem outputs (0, default) hko,
      List.getD_eq_getElem rings [] hkr]
  refine ⟨by rw [hlen, h2], hlen, rings, ?_, ?_⟩
  · intro k hk
    have hko : k < outputs.length := hlen ▸ hk
    have hkr : k < rings.length := by rw [h1]; exact hko
    refine ⟨hget k hk, ?_⟩
    have := h4 k hko
    rw [List.getD_eq_getElem outputs (0, default) hko]
    exact this
  · intro k k' hk hk' hne x hxk hxk'
    have hko : k < outputs.length := hlen ▸ hk
    have hko' : k' < outputs.length := hlen ▸ hk'
    have hkr : k < rings.length := by rw [h1]; exact hko
    have hkr' : k' < rings.length := by rw [h1]; exact hko'
    rw [List.getD_eq_getElem rings [] hkr] at hxk
    rw [List.getD_eq_getElem rings [] hkr'] at hxk'
    rw [List.getD_eq_getElem outputs (0, default) hko,
      List.getD_eq_getElem outputs (0, default) hko']
    rcases Nat.lt_or_ge k k' with hlt | hge
    · have := List.pairwise_iff_getElem.mp h5 k k'
        (by rw [hzlen]; exact hko) (by rw [hzlen]; exact hko') hlt
      rw [List.getElem_zip, List.getElem_zip] at this
      exact this x hxk hxk'
    · have hlt : k' < k := Nat.lt_of_le_of_ne hge (Ne.symm hne) -- hge : k' ≤ k? careful
      have := List.pairwise_iff_getElem.mp h5 k' k
        (by rw [hzlen]; exact hko') (by rw [hzlen]; exact hko) hlt
      rw [List.getElem_zip, List.getElem_zip] at this
      exact (this x hxk' hxk).symm.imp id id

/-- Claim C5: a successful `select` returns one `Decoys` per input, in input
order (the `k`-th value carries the `k`-th input's real data at its
real-spend position), with offsets and ring both of length `RING_LEN`. -/
theorem select_count_length_spec (rpc : Rpc) (height fuel : Nat) (rng : Rng)
    (inputs : List SpendableOutput) (outputs : List (Nat × OutputData))
    (dist : List Nat) (res : List Decoys)
    (hres : resolveInputs rpc inputs = .ok outputs)
    (hdist : rpc.get_output_distribution height = .ok dist)
    (he : select rpc height fuel rng inputs = .ok res) :
    res.length = inputs.length ∧
    (∀ dd ∈ res, dd.offsets.length = RING_LEN ∧ dd.ring.length = RING_LEN) ∧
    ∀ k (hk : k < res.length),
      (res.get ⟨k, hk⟩).ring.getD (res.get ⟨k, hk⟩).i default
        = (outputs.getD k (0, default)).2 := by
  obtain ⟨hl1, hl2, rings, hk, _⟩ :=
    @select_ok_elem (fun _ => none) rpc height fuel rng inputs outputs dist
      res hres hdist he
  refine ⟨hl1, ?_, ?_⟩
  · intro dd hdd
    obtain ⟨k, hkl, hdk⟩ := List.getElem_of_mem hdd
    obtain ⟨hmk, hf⟩ := hk k hkl
    have hdd' : dd = mkDecoys (outputs.getD k (0, default))
        (rings.getD k []) := by
      rw [← hdk]
      exact hmk
    obtain ⟨ho1, ho2, _⟩ := mkDecoys_facts hf
    rw [hdd']
    exact ⟨ho1, ho2⟩
  · intro k hkl
    obtain ⟨hmk, hf⟩ := hk k hkl
    rw [hmk]
    exact (mkDecoys_facts hf).2.2.2.2.1

theorem select_count_length_spec_witness :
    resV.length = inputsV.length ∧
    ((resV.getD 0 default).offsets.length = RING_LEN ∧
      (resV.getD 0 default).ring.length = RING_LEN) :=
  have h := select_count_length_spec rpcV 0 64 rngV inputsV
    [(998, outW 998)] distV resV rfl rfl rfl
  ⟨h.1, h.2.1 (resV.getD 0 default) (by decide)⟩

/-- Claim C6: for every input, the published real-spend position `d.i` points
at the real spend's opaque data in the sorted ring, and it equals the number
of ring members with a strictly smaller absolute index (the sort-insertion
point). -/
theorem real_spend_position_spec (rpc : Rpc) (height fuel : Nat) (rng : Rng)
    (inputs : List SpendableOutput) (outputs : List (Nat × OutputData))
    (dist : List Nat) (res : List Decoys)
    (hres : resolveInputs rpc inputs = .ok outputs)
    (hdist : rpc.get_output_distribution height = .ok dist)
    (he : select rpc height fuel rng inputs = .ok res) :
    ∀ k (hk : k < res.length),
      (res.get ⟨k, hk⟩).i < RING_LEN ∧
      (res.get ⟨k, hk⟩).ring.getD (res.get ⟨k, hk⟩).i default
        = (outputs.getD k (0, default)).2 ∧
      (res.get ⟨k, hk⟩).i
        = (decode (res.get ⟨k, hk⟩).offsets).countP
            (fun x => decide (x < (outputs.getD k (0, default)).1)) := by
  obtain ⟨hl1, hl2, rings, hk, _⟩ :=
    @select_ok_elem (fun _ => none) rpc height fuel rng inputs outputs dist
      res hres hdist he
  intro k hkl
  obtain ⟨hmk, hf⟩ := hk k hkl
  obtain ⟨_, _, _, h4, h5, h6, _⟩ := mkDecoys_facts hf
  rw [hmk]
  exact ⟨h4, h5, h6⟩

theorem real_spend_position_spec_witness :
    (resW.get ⟨0, by decide⟩).i < RING_LEN ∧
    (resW.get ⟨0, by decide⟩).ring.getD (resW.get ⟨0, by decide⟩).i default
      = outW 98 :=
  have h := real_spend_position_spec rpcW 0 64 rngW inputsW
    [(98, outW 98), (99, outW 99)] distW resW rfl rfl rfl 0 (by decide)
  ⟨h.1, h.2.1⟩

/-- Claim C1: when `high > 500`, every ring a successful `select` returns has
its reconstructed median index (position `RING_LEN / 2` of the prefix sums
of the offsets) at least `high * 2 / 3` — the repair loop only exits once
this holds; and when `high ≤ 500` the check is skipped, witnessed by a
concrete run whose ring median is far below the threshold. -/
theorem freshness_median_spec :
    (∀ (rpc : Rpc) (height fuel : Nat) (rng : Rng)
      (inputs : List SpendableOutput) (outputs : List (Nat × OutputData))
      (dist : List Nat) (res : List Decoys),
      resolveInputs rpc inputs = .ok outputs →
      rpc.get_output_distribution height = .ok dist →
      select rpc height fuel rng inputs = .ok res →
      500 < dist.getD (dist.length - 1) 0 →
      ∀ k (hk : k < res.length),
        dist.getD (dist.length - 1) 0 * 2 / 3
          ≤ (decode (res.get ⟨k, hk⟩).offsets).getD (RING_LEN / 2) 0) ∧
    (select rpcW 0 64 rngW inputsW = .ok resW ∧
      distW.getD (distW.length - 1) 0 ≤ 500 ∧
      (decode (resW.getD 0 default).offsets).getD (RING_LEN / 2) 0
        < distW.getD (distW.length - 1) 0 * 2 / 3) := by
  constructor
  · intro rpc height fuel rng inputs outputs dist res hres hdist he hhigh k hk
    obtain ⟨hl1, hl2, rings, hkk, _⟩ :=
      @select_ok_elem (fun _ => none) rpc height fuel rng inputs outputs
        dist res hres hdist he
    obtain ⟨hmk, hf⟩ := hkk k hk
    rw [hmk]
    exact mkDecoys_median hf hhigh
  · exact ⟨rfl, by decide, by decide⟩

theorem freshness_median_spec_witness :
    distV.getD (distV.length - 1) 0 * 2 / 3
      ≤ (decode ((resV.get ⟨0, by decide⟩).offsets)).getD (RING_LEN / 2) 0 :=
  freshness_median_spec.1 rpcV 0 64 rngV inputsV [(998, outW 998)] distV
    resV rfl rfl rfl (by decide) 0 (by decide)

/-- Claim C2: in every ring a successful `select` returns, the reconstructed
absolute indices are pairwise distinct, the real spend's opaque data occurs
exactly once (on a chain whose table matches the wallet's data and is
injective), and a decoy index is never shared with another ring of the same
call and never equals any real input's index. -/
theorem ring_uniqueness_spec (chain : Nat → Option OutputData) (rpc : Rpc)
    (height fuel : Nat) (rng : Rng) (inputs : List SpendableOutput)
    (outputs : List (Nat × OutputData)) (dist : List Nat) (res : List Decoys)
    (hres : resolveInputs rpc inputs = .ok outputs)
    (hdist : rpc.get_output_distribution height = .ok dist)
    (he : select rpc height fuel rng inputs = .ok res)
    (hwf : OutputsWF rpc chain)
    (hreal : ∀ q ∈ outputs, chain q.1 = some q.2)
    (hinj : ∀ i j dd, chain i = some dd → chain j = some dd → i = j) :
    res.length = inputs.length ∧
    ∀ k (hk : k < res.length),
      (decode (res.get ⟨k, hk⟩).offsets).Nodup ∧
      (res.get ⟨k, hk⟩).ring.count (outputs.getD k (0, default)).2 = 1 ∧
      ∀ x ∈ decode (res.get ⟨k, hk⟩).offsets,
        x ≠ (outputs.getD k (0, default)).1 →
        (∀ j, j < outputs.length → x ≠ (outputs.getD j (0, default)).1) ∧
        ∀ k' (hk' : k' < res.length), k' ≠ k →
          x ∉ decode (res.get ⟨k', hk'⟩).offsets := by
  obtain ⟨hl1, hl2, rings, hkk, hcross⟩ :=
    @select_ok_elem chain rpc height fuel rng inputs outputs dist res hres
      hdist he
  refine ⟨hl1, ?_⟩
  intro k hk
  obtain ⟨hmk, hf⟩ := hkk k hk
  have hko : k < outputs.length := hl2 ▸ hk
  have hdecode : decode (res.get ⟨k, hk⟩).offsets
      = (rings.getD k []).map Prod.fst := by
    rw [hmk]
    exact (mkDecoys_facts hf).2.2.1
  refine ⟨?_, ?_, ?_⟩
  · rw [hmk]
    exact (mkDecoys_facts hf).2.2.2.2.2.2
  · rw [hmk]
    refine ring_count_real hf hwf ?_ hinj
    refine hreal _ ?_
    rw [List.getD_eq_getElem outputs (0, default) hko]
    exact List.getElem_mem hko
  · intro x hx hneq
    rw [hdecode] at hx
    constructor
    · intro j hj heq
      rcases List.mem_map.mp hx with ⟨m, hm, hmx⟩
      have hxP : m.1 ∈ outputs.map Prod.fst := by
        rw [hmx, heq, List.getD_eq_getElem outputs (0, default) hj]
        exact List.mem_map_of_mem Prod.fst (List.getElem_mem hj)
      have hmo := hf.decoy_not_prot m hm hxP
      apply hneq
      rw [← hmx, hmo]
    · intro k' hk' hk'ne hxk'
      obtain ⟨hmk', hf'⟩ := hkk k' hk'
      have hdecode' : decode (res.get ⟨k', hk'⟩).offsets
          = (rings.getD k' []).map Prod.fst := by
        rw [hmk']
        exact (mkDecoys_facts hf').2.2.1
      rw [hdecode'] at hxk'
      exact hneq
        (hcross k k' hk hk' (fun h => hk'ne h.symm) x hx hxk').1

theorem ring_uniqueness_spec_witness :
    (decode (resW.get ⟨0, by decide⟩).offsets).Nodup ∧
    (resW.get ⟨0, by decide⟩).ring.count (outW 98) = 1 ∧
    (12 : Nat) ∉ decode (resW.get ⟨1, by decide⟩).offsets :=
  have h := ring_uniqueness_spec chainW rpcW 0 64 rngW inputsW
    [(98, outW 98), (99, outW 99)] distW resW rfl rfl rfl
    (ofChain_wf distW chainW oidxW) (by decide)
    (by
      intro i j dd hi hj
      simp only [chainW, Option.some.injEq] at hi hj
      rw [← hj] at hi
      exact congrArg OutputData.key hi)
  have h0 := h.2 0 (by decide)
  ⟨h0.1, h0.2.1,
    (h0.2.2 12 (by decide) (by decide)).2 1 (by decide) (by decide)⟩

/-- Claim C3: with the resolved inputs and the distribution in hand, the
selection aborts fatally before any sampling — either through the u64
underflow of `high - MATURITY` (a debug-build panic, when `high < 60`) or
through the explicit "Not enough decoys" panic — exactly when
`high - 60 < inputs.len() * RING_LEN` over the integers, i.e.
`high < 60 + inputs.len() * 11`; below the guard the result does not depend
on the RNG or the loop fuel at all. -/
theorem insufficiency_guard_spec (rpc : Rpc) (height fuel : Nat) (rng : Rng)
    (inputs : List SpendableOutput) (outputs : List (Nat × OutputData))
    (dist : List Nat)
    (hres : resolveInputs rpc inputs = .ok outputs)
    (hdist : rpc.get_output_distribution height = .ok dist) :
    ((select rpc height fuel rng inputs = .error .subOverflow ∨
      select rpc height fuel rng inputs = .error .notEnoughDecoys) ↔
      dist.getD (dist.length - 1) 0 < MATURITY + inputs.length * RING_LEN) ∧
    (dist.getD (dist.length - 1) 0 < MATURITY + inputs.length * RING_LEN →
      ∀ (fuel₂ : Nat) (rng₂ : Rng),
        select rpc height fuel rng inputs
          = select rpc height fuel₂ rng₂ inputs) := by
  have hunfold : ∀ (fl : Nat) (rg : Rng), select rpc height fl rg inputs =
      (if dist.getD (dist.length - 1) 0 < MATURITY then
        .error .subOverflow
      else if dist.getD (dist.length - 1) 0 - MATURITY
          < inputs.length * RING_LEN then .error .notEnoughDecoys
      else
        match select_n rpc height dist (dist.getD (dist.length - 1) 0) fl rg
            (outputs.foldl (fun u q => insertUsed u q.1) [])
            (inputs.length * DECOYS) with
        | .error e => .error e
        | .ok (decoys, rng', used') =>
          match assembleRings rpc height dist
              (dist.getD (dist.length - 1) 0) fl rng' used' decoys outputs
            with
          | .error e => .error e
          | .ok out => .ok out.res) := by
    intro fl rg
    rw [select, hres, hdist]
  by_cases hA : dist.getD (dist.length - 1) 0 < MATURITY
  · have hsel : ∀ (fl : Nat) (rg : Rng),
        select rpc height fl rg inputs = .error .subOverflow := by
      intro fl rg
      rw [hunfold fl rg, if_pos hA]
    refine ⟨⟨fun _ => ?_, fun _ => Or.inl (hsel fuel rng)⟩,
      fun _ fl₂ rg₂ => by rw [hsel fuel rng, hsel fl₂ rg₂]⟩
    exact Nat.lt_of_lt_of_le hA (Nat.le_add_right ..)
  · by_cases hB : dist.getD (dist.length - 1) 0 - MATURITY
        < inputs.length * RING_LEN
    · have hsel : ∀ (fl : Nat) (rg : Rng),
          select rpc height fl rg inputs = .error .notEnoughDecoys := by
        intro fl rg
        rw [hunfold fl rg, if_neg hA, if_pos hB]
      refine ⟨⟨fun _ => by omega, fun _ => Or.inr (hsel fuel rng)⟩,
        fun _ fl₂ rg₂ => by rw [hsel fuel rng, hsel fl₂ rg₂]⟩
    · have hnot : ¬ dist.getD (dist.length - 1) 0
          < MATURITY + inputs.length * RING_LEN := by omega
      have hshape : ∀ e, select rpc height fuel rng inputs = .error e →
          e = .fuel ∨ ∃ er, e = .rpc er := by
        intro e hsel
        rw [hunfold fuel rng, if_neg hA, if_neg hB] at hsel
        rcases hsn : select_n rpc height dist
            (dist.getD (dist.length - 1) 0) fuel rng
            (outputs.foldl (fun u q => insertUsed u q.1) [])
            (inputs.length * DECOYS) with e₁ | ⟨decoys, rng', used'⟩
        · rw [hsn] at hsel
          injection hsel with h
          exact h ▸ selectNAux_error_shape hsn
        · rw [hsn] at hsel
          simp only [] at hsel
          rcases hasm : assembleRings rpc height dist
              (dist.getD (dist.length - 1) 0) fuel rng' used' decoys outputs
            with e₂ | out
          · rw [hasm] at hsel
            injection hsel with h
            exact h ▸ assembleRings_error_shape outputs hasm
          · rw [hasm] at hsel
            exact Except.noConfusion hsel
      refine ⟨⟨fun hor => ?_, fun hcon => absurd hcon hnot⟩,
        fun hcon => absurd hcon hnot⟩
      exfalso
      rcases hor with hor | hor
      · rcases hshape _ hor with h | ⟨er, h⟩ <;> exact SelErr.noConfusion h
      · rcases hshape _ hor with h | ⟨er, h⟩ <;> exact SelErr.noConfusion h

theorem insufficiency_guard_spec_witness :
    distG.getD (distG.length - 1) 0 < MATURITY + inputsG.length * RING_LEN ∧
    (select rpcG 0 5 rngW inputsG = .error .subOverflow ∨
      select rpcG 0 5 rngW inputsG = .error .notEnoughDecoys) :=
  ⟨by decide,
   (insufficiency_guard_spec rpcG 0 5 rngW inputsG [(5, outW 5)] distG rfl
     rfl).1.mpr (by decide)⟩

/-- Claim C4: the delta encoder maps a strictly ascending `RING_LEN`-long
sequence to a same-length sequence whose head is the first index and whose
later entries are adjacent differences, and prefix-summing recovers the
input exactly. -/
theorem offset_roundtrip_spec (xs : List Nat) (hlen : xs.length = RING_LEN)
    (hasc : xs.Chain' (· < ·)) :
    (offset xs).length = xs.length ∧
    (offset xs).getD 0 0 = xs.getD 0 0 ∧
    (∀ m, 1 ≤ m → m < xs.length →
      (offset xs).getD m 0 = xs.getD m 0 - xs.getD (m - 1) 0) ∧
    decode (offset xs) = xs := by
  refine ⟨offset_length xs, ?_, ?_,
    decode_offset xs (hasc.imp (fun a b hab => Nat.le_of_lt hab))⟩
  · cases xs with
    | nil => rfl
    | cons r rest => rfl
  · intro m h1 h2
    cases xs with
    | nil => exact absurd h2 (by simp)
    | cons r rest =>
      obtain ⟨m', rfl⟩ : ∃ m', m = m' + 1 := ⟨m - 1, by omega⟩
      have hm' : m' < rest.length := by
        rw [List.length_cons] at h2
        omega
      have hm'2 : m' < (r :: rest).length := by
        rw [List.length_cons]
        omega
      have hzl : m' <
          (List.zipWith (fun a b => a - b) rest (r :: rest)).length := by
        rw [List.length_zipWith, List.length_cons]
        simp only [Nat.min_def]
        split <;> omega
      simp only [offset, List.getD_cons_succ, Nat.add_sub_cancel]
      rw [List.getD_eq_getElem _ 0 hzl, List.getElem_zipWith,
        List.getD_eq_getElem rest 0 hm',
        List.getD_eq_getElem (r :: rest) 0 hm'2]

theorem offset_roundtrip_spec_witness :
    ([0, 1, 2, 3, 4, 5, 6, 7, 8, 9, 10] : List Nat).length = RING_LEN ∧
    decode (offset [0, 1, 2, 3, 4, 5, 6, 7, 8, 9, 10])
      = [0, 1, 2, 3, 4, 5, 6, 7, 8, 9, 10] :=
  ⟨by decide,
   (offset_roundtrip_spec [0, 1, 2, 3, 4, 5, 6, 7, 8, 9, 10] (by decide)
     (List.chain'_iff_pairwise.mpr (by decide))).2.2.2⟩

/-- The candidate-sampling loop inserts exactly its accepted candidates: the
exit used set is the entry set plus the new candidates, nothing more and
nothing less. -/
theorem sampleCandidates_used_iff {d : List Nat} {high : Nat} :
    ∀ {fuel : Nat} {rng : Rng} {u : List Nat} {rem : Nat} {acc cs : List Nat}
      {rng' : Rng} {u' : List Nat},
      sampleCandidates d high fuel rng u rem acc = .ok (cs, rng', u') →
      ∃ new, cs = acc ++ new ∧ ∀ x, x ∈ u' ↔ x ∈ u ∨ x ∈ new := by
  intro fuel
  induction fuel with
  | zero => intro _ _ _ _ _ _ _ he; exact Except.noConfusion he
  | succ fuel ih =>
    intro rng u rem acc cs rng' u' he
    rw [sampleCandidates] at he
    split at he
    · simp only [Except.ok.injEq, Prod.mk.injEq] at he
      obtain ⟨h1, _, h3⟩ := he
      subst h1
      subst h3
      exact ⟨[], by simp, fun x => by simp⟩
    · rcases hso : sampleOne d high rng u with ⟨oc, rngm, um⟩
      rw [hso] at he
      obtain ⟨_, hsome, hnone⟩ := sampleOne_spec d high rng u hso
      cases oc with
      | none =>
        simp only [] at he
        rw [hnone rfl] at he
        exact ih he
      | some c =>
        simp only [] at he
        obtain ⟨hcu, hum⟩ := hsome c rfl
        obtain ⟨new', hcs, hiff⟩ := ih he
        refine ⟨c :: new', by rw [hcs, List.append_assoc]; rfl, ?_⟩
        intro x
        rw [hiff x, hum, mem_insertUsed_iff]
        simp only [List.mem_cons]
        tauto

/-- The instrumented resolution loop projects onto the plain one: forgetting
the recorded candidate list recovers `selectNAux` exactly. -/
theorem selectNAuxG_proj {rpc : Rpc} {height : Nat} {d : List Nat}
    {high : Nat} :
    ∀ (fuel : Nat) (rng : Rng) (u : List Nat) (count : Nat)
      (confirmed : List (Nat × OutputData)),
      selectNAux rpc height d high fuel rng u count confirmed
        = (selectNAuxG rpc height d high fuel rng u count confirmed).map
            (fun q => (q.1, q.2.1, q.2.2.1)) := by
  intro fuel
  induction fuel with
  | zero => intro rng u count confirmed; rfl
  | succ fuel ih =>
    intro rng u count confirmed
    rw [selectNAux, selectNAuxG]
    by_cases hc : confirmed.length = count
    · rw [if_pos hc, if_pos hc]
      rfl
    · rw [if_neg hc, if_neg hc]
      simp only []
      rcases hsc : sampleCandidates d high fuel rng u
          (count - confirmed.length) [] with e | ⟨cands, rng₁, u₁⟩
      · rfl
      · simp only []
        rcases hro : rpc.get_outputs cands height with e | outs
        · rfl
        · simp only []
          rw [ih]
          rcases hG : selectNAuxG rpc height d high fuel rng₁ u₁ count
              (confirmed ++
                (cands.zip outs).filterMap
                  (fun p => p.2.map (fun dd => (p.1, dd))))
            with e | ⟨cs, rng₂, u₂, sampled⟩
          · rfl
          · rfl

/-- Characterization of the recorded candidate list: it is duplicate-free,
every recorded candidate was fresh at entry, the exit used set is exactly
the entry set plus the recorded candidates — so candidates that failed to
resolve remain used — and every returned record's index is either inherited
from the accumulator or recorded. -/
theorem selectNAuxG_sampled {rpc : Rpc} {height : Nat} {d : List Nat}
    {high : Nat} :
    ∀ {fuel : Nat} {rng : Rng} {u : List Nat} {count : Nat}
      {confirmed cs : List (Nat × OutputData)} {rng' : Rng} {u' : List Nat}
      {sampled : List Nat},
      selectNAuxG rpc height d high fuel rng u count confirmed
        = .ok (cs, rng', u', sampled) →
      sampled.Nodup ∧ (∀ c ∈ sampled, c ∉ u) ∧
      (∀ x, x ∈ u' ↔ x ∈ u ∨ x ∈ sampled) ∧
      (∀ p ∈ cs, p ∈ confirmed ∨ p.1 ∈ sampled) := by
  intro fuel
  induction fuel with
  | zero => intro _ _ _ _ _ _ _ _ he; exact Except.noConfusion he
  | succ fuel ih =>
    intro rng u count confirmed cs rng' u' sampled he
    rw [selectNAuxG] at he
    split at he
    · simp only [Except.ok.injEq, Prod.mk.injEq] at he
      obtain ⟨h1, _, h3, h4⟩ := he
      subst h1
      subst h3
      subst h4
      exact ⟨List.nodup_nil, by simp, fun x => by simp,
        fun p hp => Or.inl hp⟩
    · rcases hsc : sampleCandidates d high fuel rng u
          (count - confirmed.length) [] with e | ⟨cands, rng₁, u₁⟩
      · rw [hsc] at he
        exact Except.noConfusion he
      · rw [hsc] at he
        simp only [] at he
        obtain ⟨⟨newc, hcands, hfresh⟩, hcnd, _, _, _⟩ :=
          sampleCandidates_spec hsc (by intro a ha; cases ha)
            List.nodup_nil
        rw [List.nil_append] at hcands
        subst hcands
        obtain ⟨new₀, hnew₀, hiff₁⟩ := sampleCandidates_used_iff hsc
        rw [List.nil_append] at hnew₀
        rw [← hnew₀] at hiff₁
        rcases hro : rpc.get_outputs cands height with e | outs
        · rw [hro] at he
          exact Except.noConfusion he
        · rw [hro] at he
          simp only [] at he
          rcases hG : selectNAuxG rpc height d high fuel rng₁ u₁ count
              (confirmed ++
                (cands.zip outs).filterMap
                  (fun p => p.2.map (fun dd => (p.1, dd))))
            with e | ⟨cs₂, rng₂, u₂, sampled₂⟩
          · rw [hG] at he
            exact Except.noConfusion he
          · rw [hG] at he
            simp only [Except.ok.injEq, Prod.mk.injEq] at he
            obtain ⟨h1, _, h3, h4⟩ := he
            subst h1
            subst h3
            subst h4
            obtain ⟨hnd₂, hfresh₂, hiff₂, horig₂⟩ := ih hG
            refine ⟨?_, ?_, ?_, ?_⟩
            · rw [List.nodup_append]
              refine ⟨hcnd, hnd₂, ?_⟩
              intro a ha hb
              exact hfresh₂ a hb ((hiff₁ a).mpr (Or.inr ha))
            · intro c hc
              rcases List.mem_append.mp hc with hc | hc
              · exact hfresh c hc
              · intro hcu
                exact hfresh₂ c hc ((hiff₁ c).mpr (Or.inl hcu))
            · intro x
              rw [hiff₂ x, hiff₁ x, List.mem_append]
              tauto
            · intro p hp
              rcases horig₂ p hp with hp₂ | hp₂
              · rcases List.mem_append.mp hp₂ with hp₃ | hp₃
                · exact Or.inl hp₃
                · exact Or.inr (List.mem_append.mpr
                    (Or.inl (mem_zip_filterMap hp₃)))
              · exact Or.inr (List.mem_append.mpr (Or.inr hp₂))

/-- Claim C7: a successful `select_n` call delivers exactly `count` records
with pairwise-distinct indices, all fresh with respect to the used set at
entry; the used set only grows and retains every returned index.  Moreover
the run samples a duplicate-free list of fresh candidates (recorded by the
instrumented loop `selectNAuxG`, which projects onto `select_n`) such that
the exit used set is EXACTLY the entry set plus those candidates — so every
sampled candidate, including each one `get_outputs` failed to resolve,
remains in the used set at exit and is never resampled — and every returned
index is one of them. -/
theorem select_n_contract_spec (rpc : Rpc) (height : Nat) (d : List Nat)
    (high fuel : Nat) (rng : Rng) (u : List Nat) (count : Nat)
    (cs : List (Nat × OutputData)) (rng' : Rng) (u' : List Nat)
    (he : select_n rpc height d high fuel rng u count = .ok (cs, rng', u')) :
    cs.length = count ∧ (∀ p ∈ cs, p.1 ∉ u) ∧ (cs.map Prod.fst).Nodup ∧
    (∀ x ∈ u, x ∈ u') ∧ (∀ p ∈ cs, p.1 ∈ u') ∧
    ∃ sampled : List Nat,
      selectNAuxG rpc height d high fuel rng u count []
        = .ok (cs, rng', u', sampled) ∧
      sampled.Nodup ∧ (∀ c ∈ sampled, c ∉ u) ∧
      (∀ x, x ∈ u' ↔ x ∈ u ∨ x ∈ sampled) ∧
      (∀ c ∈ sampled, c ∈ u') ∧
      (∀ p ∈ cs, p.1 ∈ sampled) := by
  obtain ⟨h1, h2, h3, h4, h5, _⟩ := select_n_spec he
  have hEq : selectNAux rpc height d high fuel rng u count []
      = (selectNAuxG rpc height d high fuel rng u count []).map
          (fun q => (q.1, q.2.1, q.2.2.1)) :=
    selectNAuxG_proj fuel rng u count []
  rw [select_n, hEq] at he
  have hEx : ∃ sampled : List Nat,
      selectNAuxG rpc height d high fuel rng u count []
        = .ok (cs, rng', u', sampled) := by
    rcases hG : selectNAuxG rpc height d high fuel rng u count []
      with e | ⟨cs₂, rng₂, u₂, sampled⟩
    · rw [hG] at he
      exact Except.noConfusion he
    · rw [hG] at he
      simp only [Except.map, Except.ok.injEq, Prod.mk.injEq] at he
      obtain ⟨hc1, hc2, hc3⟩ := he
      exact ⟨sampled, by rw [hc1, hc2, hc3]⟩
  obtain ⟨sampled, hG⟩ := hEx
  obtain ⟨hndS, hfreshS, hiffS, horigS⟩ := selectNAuxG_sampled hG
  refine ⟨h3, h1, h2, h4, h5, sampled, hG, hndS, hfreshS, hiffS, ?_, ?_⟩
  · intro c hc
    exact (hiffS c).mpr (Or.inr hc)
  · intro p hp
    rcases horigS p hp with hp₂ | hp₂
    · exact absurd hp₂ (List.not_mem_nil p)
    · exact hp₂

theorem select_n_contract_spec_witness :
    csX.length = 2 ∧ (0 : Nat) ∈ usedX := by
  obtain ⟨h1, _, _, _, _, sampled, hG, _, _, _, hmem, _⟩ :=
    select_n_contract_spec rpcX 0 distW 100 32 rngW [] 2 csX
      { stream := rngW.stream, pos := 14 } usedX rfl
  refine ⟨h1, ?_⟩
  have h4 : sampled = [0, 1, 2, 3, 4, 5, 6] := by
    have heq : (Except.ok (csX, ({ stream := rngW.stream, pos := 14 } : Rng),
        usedX, sampled) : Except SelErr _)
        = .ok (csX, ({ stream := rngW.stream, pos := 14 } : Rng), usedX,
            [0, 1, 2, 3, 4, 5, 6]) :=
      hG.symm.trans
        (show selectNAuxG rpcX 0 distW 100 32 rngW [] 2 []
            = .ok (csX, ({ stream := rngW.stream, pos := 14 } : Rng), usedX,
                [0, 1, 2, 3, 4, 5, 6]) from rfl)
    injection heq with heq
    exact congrArg (fun q => q.2.2.2) heq
  apply hmem
  rw [h4]
  decide

/-- Claim C8: a failure of any of the three chain-lookup calls aborts
`select` with that error and no partial result: a failing `get_o_indexes`
or `get_output_distribution` makes `select` return the RPC error at once;
a failing `get_outputs` makes the resolution loop return it, and `select`
forwards any error of the decoy-pooling call or of ring assembly verbatim —
in particular, when the first sampled batch's `get_outputs` fails, `select`
itself aborts with that RPC error. -/
theorem rpc_error_propagation_spec (rpc : Rpc) (height fuel : Nat)
    (rng : Rng) (inputs : List SpendableOutput) :
    (∀ e, resolveInputs rpc inputs = .error e →
      select rpc height fuel rng inputs = .error (.rpc e)) ∧
    (∀ outputs e, resolveInputs rpc inputs = .ok outputs →
      rpc.get_output_distribution height = .error e →
      select rpc height fuel rng inputs = .error (.rpc e)) ∧
    (∀ (d : List Nat) (high : Nat) (rng₀ : Rng) (u : List Nat) (count : Nat)
      (confirmed : List (Nat × OutputData)) (cands : List Nat) (rng₁ : Rng)
      (u₁ : List Nat) (e : RpcError),
      confirmed.length ≠ count →
      sampleCandidates d high fuel rng₀ u (count - confirmed.length) []
        = .ok (cands, rng₁, u₁) →
      rpc.get_outputs cands height = .error e →
      selectNAux rpc height d high (fuel + 1) rng₀ u count confirmed
        = .error (.rpc e)) ∧
    (∀ (outputs : List (Nat × OutputData)) (dist : List Nat) (e : SelErr),
      resolveInputs rpc inputs = .ok outputs →
      rpc.get_output_distribution height = .ok dist →
      ¬ dist.getD (dist.length - 1) 0 < MATURITY →
      ¬ dist.getD (dist.length - 1) 0 - MATURITY
          < inputs.length * RING_LEN →
      select_n rpc height dist (dist.getD (dist.length - 1) 0) fuel rng
          (outputs.foldl (fun u o => insertUsed u o.1) [])
          (inputs.length * DECOYS)
        = .error e →
      select rpc height fuel rng inputs = .error e) ∧
    (∀ (outputs decoys : List (Nat × OutputData)) (dist : List Nat)
      (rng₁ : Rng) (u₁ : List Nat) (e : SelErr),
      resolveInputs rpc inputs = .ok outputs →
      rpc.get_output_distribution height = .ok dist →
      ¬ dist.getD (dist.length - 1) 0 < MATURITY →
      ¬ dist.getD (dist.length - 1) 0 - MATURITY
          < inputs.length * RING_LEN →
      select_n rpc height dist (dist.getD (dist.length - 1) 0) fuel rng
          (outputs.foldl (fun u o => insertUsed u o.1) [])
          (inputs.length * DECOYS)
        = .ok (decoys, rng₁, u₁) →
      assembleRings rpc height dist (dist.getD (dist.length - 1) 0) fuel
          rng₁ u₁ decoys outputs = .error e →
      select rpc height fuel rng inputs = .error e) ∧
    (∀ (outputs : List (Nat × OutputData)) (dist : List Nat)
      (cands : List Nat) (rng₁ : Rng) (u₁ : List Nat) (fl : Nat)
      (e : RpcError),
      resolveInputs rpc inputs = .ok outputs →
      rpc.get_output_distribution height = .ok dist →
      ¬ dist.getD (dist.length - 1) 0 < MATURITY →
      ¬ dist.getD (dist.length - 1) 0 - MATURITY
          < inputs.length * RING_LEN →
      0 ≠ inputs.length * DECOYS →
      sampleCandidates dist (dist.getD (dist.length - 1) 0) fl rng
          (outputs.foldl (fun u o => insertUsed u o.1) [])
          (inputs.length * DECOYS) []
        = .ok (cands, rng₁, u₁) →
      rpc.get_outputs cands height = .error e →
      select rpc height (fl + 1) rng inputs = .error (.rpc e)) := by
  have haux3 : ∀ (fl : Nat) (d : List Nat) (high : Nat) (rng₀ : Rng)
      (u : List Nat) (count : Nat) (confirmed : List (Nat × OutputData))
      (cands : List Nat) (rng₁ : Rng) (u₁ : List Nat) (e : RpcError),
      confirmed.length ≠ count →
      sampleCandidates d high fl rng₀ u (count - confirmed.length) []
        = .ok (cands, rng₁, u₁) →
      rpc.get_outputs cands height = .error e →
      selectNAux rpc height d high (fl + 1) rng₀ u count confirmed
        = .error (.rpc e) := by
    intro fl d high rng₀ u count confirmed cands rng₁ u₁ e hne hsc hro
    rw [selectNAux, if_neg hne]
    simp only []
    rw [hsc]
    simp only []
    rw [hro]
  refine ⟨?_, ?_, haux3 fuel, ?_, ?_, ?_⟩
  · intro e h
    rw [select, h]
  · intro outputs e h1 h2
    rw [select, h1, h2]
  · intro outputs dist e h1 h2 h3 h4 hsn
    rw [select, h1, h2]
    simp only []
    rw [if_neg h3, if_neg h4, hsn]
  · intro outputs decoys dist rng₁ u₁ e h1 h2 h3 h4 hsn hasm
    rw [select, h1, h2]
    simp only []
    rw [if_neg h3, if_neg h4, hsn]
    simp only []
    rw [hasm]
  · intro outputs dist cands rng₁ u₁ fl e h1 h2 h3 h4 hzero hsc hro
    rw [select, h1, h2]
    simp only []
    rw [if_neg h3, if_neg h4]
    have hsn : select_n rpc height dist (dist.getD (dist.length - 1) 0)
        (fl + 1) rng (outputs.foldl (fun u o => insertUsed u o.1) [])
        (inputs.length * DECOYS) = .error (.rpc e) := by
      rw [select_n]
      exact haux3 fl dist (dist.getD (dist.length - 1) 0) rng
        (outputs.foldl (fun u o => insertUsed u o.1) [])
        (inputs.length * DECOYS) [] cands rng₁ u₁ e
        (by simpa using hzero) (by simpa using hsc) hro
    rw [hsn]

theorem rpc_error_propagation_spec_witness :
    select rpcFailIdx 0 5 rngW inputsW = .error (.rpc { code := 7 }) ∧
    select rpcFailDist 0 5 rngW inputsW = .error (.rpc { code := 8 }) ∧
    select rpcFailOuts 0 (31 + 1) rngW inputsW
      = .error (.rpc { code := 9 }) :=
  ⟨(rpc_error_propagation_spec rpcFailIdx 0 5 rngW inputsW).1
     { code := 7 } rfl,
   (rpc_error_propagation_spec rpcFailDist 0 5 rngW inputsW).2.1
     [(98, outW 98), (99, outW 99)] { code := 8 } rfl rfl,
   (rpc_error_propagation_spec rpcFailOuts 0 0 rngW inputsW).2.2.2.2.2
     [(98, outW 98), (99, outW 99)] distW (List.range 20)
     { stream := rngW.stream, pos := 40 }
     [19, 18, 17, 16, 15, 14, 13, 12, 11, 10, 9, 8, 7, 6, 5, 4, 3, 2, 1, 0,
      99, 98]
     31 { code := 9 } rfl rfl (by decide) (by decide) (by decide) rfl rfl⟩

/-- Claim C10: in the sampling loop, when the drawn offset is below `high`
and the distribution is non-empty, non-decreasing, with last element
`high`, both distribution accesses are in bounds (the partition point is
strictly below the length, hence so is its predecessor), and every accepted
candidate index is strictly below `high`. -/
theorem sampling_bounds_spec (dist : List Nat) (high : Nat) (rng : Rng)
    (u : List Nat)
    (hne : dist ≠ []) (hsort : dist.Pairwise (· ≤ ·))
    (hlast : dist.getD (dist.length - 1) 0 = high)
    (ho : rng.stream rng.pos < high) :
    partitionPoint dist
        (fun s => decide (s < high - 1 - rng.stream rng.pos))
      < dist.length ∧
    partitionPoint dist
        (fun s => decide (s < high - 1 - rng.stream rng.pos)) - 1
      < dist.length ∧
    ∀ c rng' u', sampleOne dist high rng u = (some c, rng', u') →
      c < high := by
  have h1 := partitionPoint_lt_length hne hlast ho
  exact ⟨h1, by omega,
    fun c rng' u' he => sampleOne_some_lt_high hsort hlast he⟩

theorem sampling_bounds_spec_witness :
    rngW.stream rngW.pos < 100 ∧
    partitionPoint distW
        (fun s => decide (s < 100 - 1 - rngW.stream rngW.pos))
      < distW.length :=
  ⟨by decide,
   (sampling_bounds_spec distW 100 rngW [] (by decide) (by decide)
     (by decide) (by decide)).1⟩

/-- Claim C9 as stated is false on the code: the first input does NOT
receive the first `RING_LEN - 1` pool decoys.  In the concrete scenario the
pool is `0..19` (in sampling order) and the first input's ring holds decoys
`10..19` — the BACK of the pool — while the claim predicts `0..9`. -/
theorem pool_order_counterexample :
    select rpcW 0 64 rngW inputsW = .ok resW ∧
    select_n rpcW 0 distW 100 64 rngW [99, 98] 20
      = .ok (poolW, { stream := rngW.stream, pos := 40 }, usedW) ∧
    decode ((resW.get ⟨0, by decide⟩).offsets)
      ≠ (sortRing (poolW.take DECOYS ++ [(98, outW 98)])).map Prod.fst ∧
    decode ((resW.get ⟨0, by decide⟩).offsets)
      = (sortRing (poolW.drop (poolW.length - DECOYS)
          ++ [(98, outW 98)])).map Prod.fst :=
  ⟨rfl, rfl, by decide, by decide⟩

/-- Claim C9, amended: the pooled decoys are consumed in input order from
the BACK of the pool: input `k` of `N` receives the pool slice at positions
`(N - 1 - k)·(RING_LEN - 1) .. (N - k)·(RING_LEN - 1) - 1`, plus its real
output, sorted ascending by index, as its initial candidate ring. -/
theorem pool_back_drain_spec {rpc : Rpc} {height : Nat} {d : List Nat}
    {high : Nat} :
    ∀ (os pool : List (Nat × OutputData)) (fuel : Nat) (rng : Rng)
      (used : List Nat) (out : AssembleOut),
      assembleRings rpc height d high fuel rng used pool os = .ok out →
      pool.length = os.length * DECOYS →
      out.inits.length = os.length ∧
      ∀ k (hk : k < os.length),
        out.inits.getD k []
          = sortRing
              ((pool.drop ((os.length - 1 - k) * DECOYS)).take DECOYS
                ++ [os.get ⟨k, hk⟩]) := by
  intro os
  induction os with
  | nil =>
    intro pool fuel rng used out he _
    rw [assembleRings] at he
    simp only [Except.ok.injEq] at he
    subst he
    exact ⟨rfl, fun k hk => absurd hk (Nat.not_lt_zero k)⟩
  | cons o rest ih =>
    intro pool fuel rng used out he hlen
    rw [assembleRings] at he
    rcases hrep : (if 500 < high then
        repairRing rpc height d high o fuel rng used
          (sortRing (pool.drop (pool.length - DECOYS) ++ [o]))
      else .ok (sortRing (pool.drop (pool.length - DECOYS) ++ [o]), rng,
        used)) with e | ⟨ringF, rngF, usedF⟩
    · rw [hrep] at he
      exact Except.noConfusion he
    · rw [hrep] at he
      simp only [] at he
      rcases hrest : assembleRings rpc height d high fuel rngF usedF
          (pool.take (pool.length - DECOYS)) rest with e | out₂
      · rw [hrest] at he
        exact Except.noConfusion he
      · rw [hrest] at he
        simp only [Except.ok.injEq] at he
        subst he
        have hlen' : (pool.take (pool.length - DECOYS)).length
            = rest.length * DECOYS := by
          rw [List.length_take, hlen, List.length_cons]
          simp only [DECOYS, RING_LEN]
          omega
        obtain ⟨hl₂, hik⟩ := ih (pool.take (pool.length - DECOYS)) fuel rngF
          usedF out₂ hrest hlen'
        refine ⟨by simp [hl₂], ?_⟩
        intro k hk
        cases k with
        | zero =>
          show sortRing (pool.drop (pool.length - DECOYS) ++ [o]) = _
          have harith : pool.length - DECOYS
              = ((o :: rest).length - 1 - 0) * DECOYS := by
            rw [hlen, List.length_cons]
            simp only [DECOYS, RING_LEN]
            omega
          have htk : (pool.drop (((o :: rest).length - 1 - 0)
              * DECOYS)).take DECOYS
              = pool.drop (((o :: rest).length - 1 - 0) * DECOYS) := by
            apply List.take_of_length_le
            rw [List.length_drop, hlen, List.length_cons]
            simp only [DECOYS, RING_LEN]
            omega
          rw [htk, ← harith]
          rfl
        | succ k =>
          have hk' : k < rest.length := by
            rw [List.length_cons] at hk
            omega
          have hkey := hik k hk'
          show out₂.inits.getD k [] = _
          rw [hkey]
          have hidx : (o :: rest).length - 1 - (k + 1)
              = rest.length - 1 - k := by
            rw [List.length_cons]
            omega
          rw [hidx, List.drop_take, List.take_take]
          have hmin : DECOYS ⊓ (pool.length - DECOYS
              - (rest.length - 1 - k) * DECOYS) = DECOYS := by
            rw [hlen, List.length_cons]
            simp only [DECOYS, RING_LEN]
            omega
          rw [hmin]
          rfl

theorem pool_back_drain_spec_witness :
    asmOutW.inits.getD 0 []
      = sortRing ((poolW.drop (1 * DECOYS)).take DECOYS
          ++ [(98, outW 98)]) :=
  (@pool_back_drain_spec rpcW 0 distW 100 [(98, outW 98), (99, outW 99)]
    poolW 64 { stream := rngW.stream, pos := 40 } usedW asmOutW rfl
    (by decide)).2 0 (by decide)

end SeraiDecoys
